import Mathlib

/-!
Verification development for the query execution and caching layer of
googleapis/python-ndb.  The Python sources are shallowly embedded: Python
optional integers become `Option Int` (with Python truthiness made explicit),
byte strings become `List Nat`, entities and query results become structures,
the stateful iterators become explicit state-passing functions, and fallible
code returns `Except`.
-/

set_option maxHeartbeats 1000000

/-- Python byte strings, as lists of byte values. -/
abbrev Bytes := List Nat

/-- A Python value that is either `None` or an `int` (e.g. the `offset` and
`limit` attributes of a query spec). -/
abbrev PyInt := Option Int

/-- Python truthiness of an optional integer: `None` and `0` are falsy. -/
def pyTruthy : PyInt → Bool
  | none => false
  | some n => n != 0

/-- Python `x == 0` for an optional integer: `None == 0` is `False`. -/
def pyIsZero : PyInt → Bool
  | none => false
  | some n => n == 0

/-- Python `x -= 1` on an integer known to be present. -/
def pyDec : PyInt → PyInt
  | none => none
  | some n => some (n - 1)

/-- Python truthiness of an optional byte string: `None` and `b""` are falsy. -/
def pyBytesTruthy : Option Bytes → Bool
  | none => false
  | some b => !b.isEmpty

/-! ## Lock sentinel predicates (remote_cache.py and _cache.py)

`remote_cache.py` defines `_LOCKED = 0`, `_LOCKED_STR = '0'`,
`_LOCKED_BYTES = b'0'`; `_cache.py` defines `_LOCKED = b"0"`.  A value that can
reach either predicate is an int, a str, or a bytes object; Python equality
between values of these three types never identifies values of distinct types.
-/

/-- A Python value of one of the three types that the lock sentinel can take. -/
inductive PyVal where
  | int (n : Int)
  | str (s : String)
  | bytes (b : Bytes)
deriving DecidableEq, Repr

/-- Python `==` on `PyVal`: `int`, `str` and `bytes` are never equal across
types (`0 == "0"` and `"0" == b"0"` are both `False` in Python 3). -/
def pyValEq : PyVal → PyVal → Bool
  | .int a, .int b => a == b
  | .str a, .str b => a == b
  | .bytes a, .bytes b => a == b
  | _, _ => false

/-- `remote_cache._LOCKED = 0`. -/
def remoteLockedInt : PyVal := .int 0

/-- `remote_cache._LOCKED_STR = '0'`. -/
def remoteLockedStr : PyVal := .str "0"

/-- `remote_cache._LOCKED_BYTES = b'0'` (ASCII 48). -/
def remoteLockedBytes : PyVal := .bytes [48]

/-- `remote_cache.is_locked_value(value)`:
`value in (_LOCKED, _LOCKED_STR, _LOCKED_BYTES)`. -/
def remoteIsLockedValue (value : PyVal) : Bool :=
  pyValEq value remoteLockedInt || pyValEq value remoteLockedStr
    || pyValEq value remoteLockedBytes

/-- `_cache._LOCKED = b"0"`. -/
def cacheLockedBytes : PyVal := .bytes [48]

/-- `_cache.is_locked_value(value)`: `value == _LOCKED`. -/
def cacheIsLockedValue (value : PyVal) : Bool :=
  pyValEq value cacheLockedBytes

/-! ## Entities, results, and the per-context entity cache -/

/-- An NDB entity, reduced to what the claims need: its identity (`_key`) and
an abstract payload distinguishing entities. -/
structure Entity where
  key : Nat
  data : Nat
deriving DecidableEq, Repr

/-- `query_pb2.EntityResult.ResultType`. -/
inductive EResultType where
  | full
  | keyOnly
  | projRes
deriving DecidableEq, Repr

/-- `_datastore_query._Result`, reduced to what the claims need. `entity.key`
also stands for the wire-serialized identity used as the dedup hash key. -/
structure QResult where
  resultType : EResultType
  entity : Entity
  cursor : Bytes
deriving DecidableEq, Repr

instance : Inhabited QResult := ⟨⟨.keyOnly, ⟨0, 0⟩, []⟩⟩

/-- The wire-serialized identity of a result
(`result_pb.entity.key._pb.SerializeToString()`); key serialization is
injective, so the entity key itself serves. -/
def QResult.hashKey (r : QResult) : Nat := r.entity.key

/-- The per-context in-memory entity cache (`_cache.ContextCache`), a dict
from keys to entities; the value `none` is a tombstone meaning
"doesn't exist". Modeled as an association list with unique keys (a dict). -/
abbrev ContextCacheData := List (Nat × Option Entity)

/-- Dict lookup: `self.data[key]`, first match. -/
def ccLookup : ContextCacheData → Nat → Option (Option Entity)
  | [], _ => none
  | (k, v) :: rest, key => if k == key then some v else ccLookup rest key

/-- Dict deletion: `del self.data[key]`. -/
def ccDelete (c : ContextCacheData) (key : Nat) : ContextCacheData :=
  c.filter (fun p => p.1 != key)

/-- `ContextCache.get_and_validate(key)`: raises `KeyError` (the `Except.error`
branch) on a missing key; returns the entry when it is `None` or its `_key`
still equals `key`; otherwise deletes the entry and raises `KeyError`.  The
second component is the cache after the call (mutated only by the eviction). -/
def getAndValidate (c : ContextCacheData) (key : Nat) :
    Except Unit (Option Entity) × ContextCacheData :=
  match ccLookup c key with
  | none => (.error (), c)
  | some none => (.ok none, c)
  | some (some entity) =>
      if entity.key == key then (.ok (some entity), c)
      else (.error (), ccDelete c key)

/-! ## Cursor and URL-safe base64 (`_datastore_query.Cursor`) -/

/-- One sextet to its character in the URL-safe base64 alphabet
(`A`-`Z`, `a`-`z`, `0`-`9`, `-`, `_`), as an ASCII code. -/
def b64encChar (n : Nat) : Nat :=
  if n < 26 then 65 + n
  else if n < 52 then 97 + (n - 26)
  else if n < 62 then 48 + (n - 52)
  else if n = 62 then 45
  else 95

/-- Inverse of `b64encChar` on the URL-safe alphabet. -/
def b64decChar (c : Nat) : Nat :=
  if 65 ≤ c && c ≤ 90 then c - 65
  else if 97 ≤ c && c ≤ 122 then 26 + (c - 97)
  else if 48 ≤ c && c ≤ 57 then 52 + (c - 48)
  else if c = 45 then 62
  else if c = 95 then 63
  else 0

/-- `base64.urlsafe_b64encode`: 3 input bytes become 4 alphabet characters,
with `=` (ASCII 61) padding for a 1- or 2-byte tail. -/
def urlsafeB64encode : Bytes → Bytes
  | [] => []
  | [a] => [b64encChar (a / 4), b64encChar (a % 4 * 16), 61, 61]
  | [a, b] =>
      [b64encChar (a / 4), b64encChar (a % 4 * 16 + b / 16),
        b64encChar (b % 16 * 4), 61]
  | a :: b :: c :: rest =>
      b64encChar (a / 4) :: b64encChar (a % 4 * 16 + b / 16)
        :: b64encChar (b % 16 * 4 + c / 64) :: b64encChar (c % 64)
        :: urlsafeB64encode rest

/-- `base64.urlsafe_b64decode` on well-formed URL-safe base64 (groups of 4
characters, `=`-padded); this is the only shape `Cursor` ever decodes. -/
def urlsafeB64decode : Bytes → Bytes
  | c1 :: c2 :: c3 :: c4 :: rest =>
      let s1 := b64decChar c1
      let s2 := b64decChar c2
      if c3 = 61 then [s1 * 4 + s2 / 16]
      else
        let s3 := b64decChar c3
        if c4 = 61 then [s1 * 4 + s2 / 16, s2 % 16 * 16 + s3 / 4]
        else
          (s1 * 4 + s2 / 16) :: (s2 % 16 * 16 + s3 / 4)
            :: (s3 % 4 * 64 + b64decChar c4) :: urlsafeB64decode rest
  | _ => []

/-- `_datastore_query.Cursor`: the `cursor` attribute is `None` or a byte
string. -/
structure PyCursor where
  cursor : Option Bytes
deriving DecidableEq, Repr

/-- `Cursor.__init__(cursor=None, urlsafe=None)`: raises `TypeError` when both
arguments are truthy; sets `self.cursor = cursor`, then overwrites it with
`base64.urlsafe_b64decode(urlsafe)` only when `urlsafe` is truthy (a non-empty
byte string). -/
def cursorNew (cursor urlsafe : Option Bytes) : Except Unit PyCursor :=
  if pyBytesTruthy cursor && pyBytesTruthy urlsafe then .error ()
  else
    .ok ⟨match urlsafe with
          | some u => if u.isEmpty then cursor else some (urlsafeB64decode u)
          | none => cursor⟩

/-- `Cursor.urlsafe()`: `base64.urlsafe_b64encode(self.cursor)`; raises (a
`TypeError`) when `self.cursor` is `None`. -/
def cursorUrlsafe (c : PyCursor) : Except Unit Bytes :=
  match c.cursor with
  | none => .error ()
  | some b => .ok (urlsafeB64encode b)

/-- The round trip of the claim: `Cursor(urlsafe=Cursor(b).urlsafe()).cursor`.
Returns `none` when a step raised, otherwise the final `cursor` attribute. -/
def cursorRoundTrip (b : Bytes) : Option (Option Bytes) :=
  match cursorNew (some b) none with
  | .error _ => none
  | .ok c1 =>
      match cursorUrlsafe c1 with
      | .error _ => none
      | .ok u =>
          match cursorNew none (some u) with
          | .error _ => none
          | .ok c2 => some c2.cursor

/-! ## Query specs and context -/

/-- Modelled from the spec: `query.py` is not under `src/`; of the filter tree
only the two classifications `count` and `iterate` consume are kept: whether
the tree forces multiquery decomposition (`FilterNode._multiquery`: a top-level
disjunction or a `!=`/`IN` operator) and whether post filters are present
(`FilterNode._post_filters()` returns a truthy node). -/
structure QFilters where
  multiquery : Bool
  postFiltersPresent : Bool
deriving DecidableEq, Repr

/-- `query.QueryOptions`, reduced to the fields the embedded code reads. -/
structure QuerySpec where
  filters : Option QFilters
  projection : Option (List String)
  orderByNames : Option (List String)
  limit : PyInt
  offset : PyInt
  startCursor : Option Bytes
deriving Repr

/-- The ambient context: the per-scope entity cache plus the per-kind
cache-use policy (`context._use_cache(key)`). -/
structure NdbContext where
  cache : ContextCacheData
  useCache : Nat → Bool

/-- `_Result.check_cache(context)` resolves to one of these: the sentinel
`_KEY_NOT_IN_CACHE`, or a cached value (possibly `None`, a tombstone). -/
inductive CacheCheck where
  | notInCache
  | hit (e : Option Entity)
deriving DecidableEq, Repr

/-- `_Result.check_cache(context)`: when the policy allows caching for the
key, try `get_and_validate` and swallow `KeyError`; otherwise (or on
`KeyError`) the sentinel.  The second component is the context afterwards
(`get_and_validate` may evict an entry). -/
def checkCache (ctx : NdbContext) (key : Nat) : CacheCheck × NdbContext :=
  if ctx.useCache key then
    match getAndValidate ctx.cache key with
    | (.ok v, cache2) => (.hit v, { ctx with cache := cache2 })
    | (.error _, cache2) => (.notInCache, { ctx with cache := cache2 })
  else (.notInCache, ctx)

/-- The list comprehension in `_QueryIteratorImpl._next_batch` that keeps a
FULL result only when `result.check_cache(context) is not None`, threading the
context through the checks. -/
def filterTombstones (ctx : NdbContext) : List QResult → List QResult × NdbContext
  | [] => ([], ctx)
  | r :: rs =>
      let (c, ctx2) := checkCache ctx r.entity.key
      let (rest, ctx3) := filterTombstones ctx2 rs
      match c with
      | .hit none => (rest, ctx3)
      | _ => (r :: rest, ctx3)

/-! ## The wire batch and the single-query iterator
(`_datastore_query._QueryIteratorImpl`)

The RPC collaborator is abstracted as the list of batches the backend will
deliver, consumed in order; each batch carries the response fields
`has_next_async`/`_next_batch` read.
-/

/-- `query_pb2.QueryResultBatch.MoreResultsType`, restricted to the three
values the spec names. -/
inductive MoreResults where
  | notFinished
  | noMoreResults
  | moreResultsAfterLimit
deriving DecidableEq, Repr

/-- One `response.batch` of a `run_query` call. -/
structure WireBatch where
  results : List QResult
  resultType : EResultType
  moreResults : MoreResults
  endCursor : Bytes
  skippedResults : Int
deriving Repr

/-- The state of a `_QueryIteratorImpl`: its mutable attributes, the ambient
context, and the batches the backend has yet to deliver. -/
structure SQState where
  query : QuerySpec
  batch : Option (List QResult)
  index : Nat
  hasNextBatch : Bool
  moreAfterLimit : Bool
  cursorBefore : Option Bytes
  cursorAfter : Option Bytes
  ctx : NdbContext
  backend : List WireBatch

/-- `_QueryIteratorImpl.__init__` (Python initializes `_index` and
`_has_next_batch` to `None`; both are written before being read, so `0` and
`false` stand in). -/
def sqInit (query : QuerySpec) (ctx : NdbContext) (backend : List WireBatch) :
    SQState :=
  ⟨query, none, 0, false, false, none, none, ctx, backend⟩

/-- `_QueryIteratorImpl._next_batch`: run the query, wrap the results, drop
locally-deleted FULL results, record whether more batches remain, and if so
derive the next query spec (cursor advanced to the batch's end cursor, limit
reduced by the buffered batch's length, truthy offset reduced by the
server-reported skipped count).  An exhausted backend stands for a final empty
batch. -/
def sqNextBatch (s : SQState) : SQState :=
  match s.backend with
  | [] =>
      { s with batch := some [], index := 0, hasNextBatch := false,
               moreAfterLimit := false, backend := [] }
  | b :: rest =>
      let (results, ctx2) :=
        if b.resultType = .full then filterTombstones s.ctx b.results
        else (b.results, s.ctx)
      let moreR := b.moreResults == .notFinished
      let query2 :=
        if moreR then
          { s.query with
              startCursor := some b.endCursor,
              limit := s.query.limit.map (fun l => l - results.length),
              offset :=
                if pyTruthy s.query.offset then
                  s.query.offset.map (fun o => o - b.skippedResults)
                else s.query.offset }
        else s.query
      { s with query := query2, batch := some results, index := 0,
               hasNextBatch := moreR,
               moreAfterLimit := b.moreResults == .moreResultsAfterLimit,
               ctx := ctx2, backend := rest }

/-- The buffered batch, `[]` when none was fetched yet. -/
def SQState.batchList (s : SQState) : List QResult := s.batch.getD []

/-- The `while self._has_next_batch` loop of
`_QueryIteratorImpl.has_next_async`: keep fetching batches, skipping empty
ones, until a non-empty batch or exhaustion. -/
def sqHasNextLoop (s : SQState) : Bool × SQState :=
  if s.hasNextBatch then
    let s2 := sqNextBatch s
    if s2.batchList.isEmpty then sqHasNextLoop s2
    else (decide (s2.index < s2.batchList.length), s2)
  else (false, s)
termination_by s.backend.length + (if s.hasNextBatch then 1 else 0)
decreasing_by
  simp only [sqNextBatch]
  split
  · simp_all
  · split <;> simp_all <;> omega

/-- The tail of `_QueryIteratorImpl.has_next_async` once a batch is buffered:
report `True` while the buffered batch has unread entries, else loop for the
next non-empty batch. -/
def sqHasNextStep (s1 : SQState) : Bool × SQState :=
  if s1.index < s1.batchList.length then (true, s1)
  else sqHasNextLoop s1

/-- `_QueryIteratorImpl.has_next_async`: fetch the first batch if none was
fetched yet (`if self._batch is None`), then report on the buffered batch. -/
def sqHasNext (s : SQState) : Bool × SQState :=
  sqHasNextStep (if s.batch.isNone then sqNextBatch s else s)

/-- `_QueryIteratorImpl.next`: `StopIteration` becomes `none`; on success the
buffered result is returned, the index advanced, and the cursors adjusted. -/
def sqNext (s : SQState) : Option (QResult × SQState) :=
  match sqHasNext s with
  | (false, _) => none
  | (true, s1) =>
      let r := s1.batchList.getD s1.index default
      some (r, { s1 with index := s1.index + 1,
                         cursorBefore := s1.cursorAfter,
                         cursorAfter := some r.cursor })

/-! ### Termination measure for draining a single-query iterator -/

/-- Weight of the pending backend batches: result counts plus batch count. -/
def backendWeight (bs : List WireBatch) : Nat :=
  (bs.map (fun b => b.results.length + 1)).sum

/-- Measure that every successful `sqNext` strictly decreases. -/
def sqMeasure (s : SQState) : Nat :=
  (s.batchList.length - s.index) + backendWeight s.backend
    + (if s.hasNextBatch then 1 else 0) + (if s.batch.isNone then 1 else 0)

theorem filterTombstones_fst_length (ctx : NdbContext) (rs : List QResult) :
    (filterTombstones ctx rs).1.length ≤ rs.length := by
  induction rs generalizing ctx with
  | nil => simp [filterTombstones]
  | cons r rs ih =>
      simp only [filterTombstones]
      split
      · exact Nat.le_succ_of_le (ih _)
      · simpa using ih _

theorem sqNextBatch_measure (s : SQState) (h : s.batchList.length ≤ s.index) :
    sqMeasure (sqNextBatch s) ≤ sqMeasure s := by
  unfold sqMeasure sqNextBatch
  split
  · rename_i heq
    simp [SQState.batchList, heq, backendWeight]
  · rename_i b rest heq
    have hres : (if b.resultType = .full then filterTombstones s.ctx b.results
        else (b.results, s.ctx)).1.length ≤ b.results.length := by
      split
      · exact filterTombstones_fst_length _ _
      · simp
    simp only [SQState.batchList, heq, backendWeight, List.map_cons, List.sum_cons]
    have h0 : (s.batch.getD []).length - s.index = 0 := by
      simp only [SQState.batchList] at h
      omega
    split <;> simp_all [SQState.batchList] <;> split_ifs <;> simp_all <;> omega

theorem sqHasNextLoop_spec (s : SQState) (h : s.batchList.length ≤ s.index) :
    sqMeasure (sqHasNextLoop s).2 ≤ sqMeasure s
      ∧ ((sqHasNextLoop s).1 = true →
          (sqHasNextLoop s).2.index < (sqHasNextLoop s).2.batchList.length)
      ∧ ((sqHasNextLoop s).1 = false →
          (sqHasNextLoop s).2.hasNextBatch = false) := by
  induction s using sqHasNextLoop.induct with
  | case1 s hnb s2 hempty ih =>
      have hs2 : s2 = sqNextBatch s := rfl
      rw [hs2] at hempty ih
      unfold sqHasNextLoop
      simp only [hnb, if_true, hempty]
      have hle : sqMeasure (sqNextBatch s) ≤ sqMeasure s := sqNextBatch_measure s h
      have h2 : (sqNextBatch s).batchList.length ≤ (sqNextBatch s).index := by
        rw [List.isEmpty_iff] at hempty
        simp [hempty]
      have := ih h2
      exact ⟨le_trans this.1 hle, this.2.1, this.2.2⟩
  | case2 s hnb s2 hempty =>
      have hs2 : s2 = sqNextBatch s := rfl
      rw [hs2] at hempty
      unfold sqHasNextLoop
      simp only [hnb, if_true, hempty, Bool.false_eq_true, if_false]
      refine ⟨sqNextBatch_measure s h, ?_, ?_⟩
      · intro hdec
        exact of_decide_eq_true hdec
      · intro hdec
        rw [decide_eq_false_iff_not] at hdec
        rw [List.isEmpty_iff] at hempty
        exfalso
        have hlen : 0 < (sqNextBatch s).batchList.length := by
          cases hbl : (sqNextBatch s).batchList with
          | nil => exact absurd hbl hempty
          | cons a l => simp
        have hidx : (sqNextBatch s).index = 0 := by
          unfold sqNextBatch
          split <;> simp
        omega
  | case3 s hnb =>
      unfold sqHasNextLoop
      simp [hnb]

theorem sqHasNextStep_measure (s1 : SQState) :
    sqMeasure (sqHasNextStep s1).2 ≤ sqMeasure s1 := by
  unfold sqHasNextStep
  split
  · simp
  · exact (sqHasNextLoop_spec _ (by omega)).1

theorem sqHasNextStep_true_index (s1 : SQState)
    (h : (sqHasNextStep s1).1 = true) :
    (sqHasNextStep s1).2.index < (sqHasNextStep s1).2.batchList.length := by
  unfold sqHasNextStep at h ⊢
  split at h
  · rename_i hlt
    rw [if_pos hlt]
    simpa using hlt
  · rename_i hlt
    rw [if_neg hlt]
    exact (sqHasNextLoop_spec _ (by omega)).2.1 h

theorem sqHasNext_measure (s : SQState) :
    sqMeasure (sqHasNext s).2 ≤ sqMeasure s := by
  unfold sqHasNext
  split
  · rename_i hn
    refine le_trans (sqHasNextStep_measure _) (sqNextBatch_measure s ?_)
    simp [SQState.batchList, Option.isNone_iff_eq_none.mp hn]
  · exact sqHasNextStep_measure s

theorem sqHasNext_true_index (s : SQState)
    (h : (sqHasNext s).1 = true) :
    (sqHasNext s).2.index < (sqHasNext s).2.batchList.length := by
  unfold sqHasNext at h ⊢
  exact sqHasNextStep_true_index _ h

theorem sqNext_measure (s : SQState) (r : QResult) (s2 : SQState)
    (h : sqNext s = some (r, s2)) : sqMeasure s2 < sqMeasure s := by
  unfold sqNext at h
  split at h
  · exact absurd h (by simp)
  · rename_i heq
    obtain ⟨hb, hs1⟩ : (sqHasNext s).1 = true ∧ (sqHasNext s).2 = _ :=
      ⟨congrArg Prod.fst heq, congrArg Prod.snd heq⟩
    have hidx := sqHasNext_true_index s hb
    have hle := sqHasNext_measure s
    simp only [Option.some.injEq, Prod.mk.injEq] at h
    have hs2 : s2 = { (sqHasNext s).2 with
        index := (sqHasNext s).2.index + 1,
        cursorBefore := (sqHasNext s).2.cursorAfter,
        cursorAfter := some ((sqHasNext s).2.batchList.getD (sqHasNext s).2.index default).cursor } := by
      rw [← h.2, hs1]
    subst hs2
    simp only [sqMeasure, SQState.batchList] at *
    omega

/-- Draining an iterator through the `has_next`/`next` protocol, as `fetch`
and the sub-iterators of a multi-query do. -/
def sqDrain (s : SQState) : List QResult :=
  match hn : sqNext s with
  | none => []
  | some (r, s2) => r :: sqDrain s2
termination_by sqMeasure s
decreasing_by exact sqNext_measure s _ _ hn

/-- The results a well-behaved backend lets the iterator see: each batch's
results, continuing past a batch exactly when it signals `NOT_FINISHED`. -/
def joinPending : List WireBatch → List QResult
  | [] => []
  | b :: bs =>
      b.results ++ (if b.moreResults = .notFinished then joinPending bs else [])

/-- With an empty context cache nothing is a tombstone: the FULL-result filter
keeps every result and leaves the context unchanged. -/
theorem filterTombstones_empty_cache (ctx : NdbContext) (h : ctx.cache = [])
    (rs : List QResult) : filterTombstones ctx rs = (rs, ctx) := by
  induction rs with
  | nil => simp [filterTombstones]
  | cons r rs ih =>
      have hcc : checkCache ctx r.entity.key = (.notInCache, ctx) := by
        unfold checkCache getAndValidate
        obtain ⟨cache, f⟩ := ctx
        simp only at h
        subst h
        simp [ccLookup]
      simp [filterTombstones, hcc, ih]

/-- Abstraction of a single-query iterator state: the results still to be
yielded, assuming an empty context cache. -/
def sqAbs (s : SQState) : List QResult :=
  match s.batch with
  | none => joinPending s.backend
  | some bl =>
      bl.drop s.index ++ (if s.hasNextBatch then joinPending s.backend else [])

theorem sqNextBatch_abs (s : SQState) (h : s.ctx.cache = []) :
    sqAbs (sqNextBatch s) = joinPending s.backend
      ∧ (sqNextBatch s).ctx = s.ctx := by
  cases hb : s.backend with
  | nil =>
      simp only [sqNextBatch, hb]
      exact ⟨by simp [sqAbs, joinPending], trivial⟩
  | cons b rest =>
      have hft : (if b.resultType = .full then filterTombstones s.ctx b.results
          else (b.results, s.ctx)) = (b.results, s.ctx) := by
        split
        · exact filterTombstones_empty_cache s.ctx h b.results
        · rfl
      simp only [sqNextBatch, hb, hft]
      refine ⟨?_, trivial⟩
      by_cases hm : b.moreResults = MoreResults.notFinished <;>
        simp [sqAbs, joinPending, hm]

theorem sqNextBatch_isSome (s : SQState) : (sqNextBatch s).batch.isSome := by
  unfold sqNextBatch
  split
  · simp
  · rename_i b rest heq
    split
    simp

theorem sqNextBatch_index (s : SQState) : (sqNextBatch s).index = 0 := by
  unfold sqNextBatch
  split
  · simp
  · rename_i b rest heq
    split
    simp

/-- Preservation through the batch-skipping loop: with an empty context cache
the abstraction is preserved, a `False` answer means nothing is left, and the
context cache stays empty. -/
theorem sqHasNextLoop_abs (s : SQState) (h : s.ctx.cache = [])
    (hidx : s.batchList.length ≤ s.index) (hsome : s.batch.isSome) :
    sqAbs (sqHasNextLoop s).2 = sqAbs s
      ∧ (sqHasNextLoop s).2.ctx.cache = []
      ∧ ((sqHasNextLoop s).1 = false → sqAbs (sqHasNextLoop s).2 = []) := by
  induction s using sqHasNextLoop.induct with
  | case1 s hnb s2 hempty ih =>
      have hs2 : s2 = sqNextBatch s := rfl
      rw [hs2] at hempty ih
      unfold sqHasNextLoop
      simp only [hnb, if_true, hempty]
      have habs := sqNextBatch_abs s h
      have hpre : sqAbs s = joinPending s.backend := by
        unfold sqAbs
        cases hbat : s.batch with
        | none => rfl
        | some bl =>
            have hd : bl.drop s.index = [] := by
              apply List.drop_eq_nil_of_le
              simpa [SQState.batchList, hbat] using hidx
            simp [hd, hnb]
      have h2 : (sqNextBatch s).ctx.cache = [] := by rw [habs.2]; exact h
      have hidx2 : (sqNextBatch s).batchList.length ≤ (sqNextBatch s).index := by
        rw [List.isEmpty_iff] at hempty
        simp [hempty]
      have hrec := ih h2 hidx2 (sqNextBatch_isSome s)
      refine ⟨?_, hrec.2.1, ?_⟩
      · rw [hrec.1, habs.1, hpre]
      · intro hf
        exact hrec.2.2 hf
  | case2 s hnb s2 hempty =>
      have hs2 : s2 = sqNextBatch s := rfl
      rw [hs2] at hempty
      unfold sqHasNextLoop
      simp only [hnb, if_true, hempty, Bool.false_eq_true, if_false]
      have habs := sqNextBatch_abs s h
      have hpre : sqAbs s = joinPending s.backend := by
        unfold sqAbs
        cases hbat : s.batch with
        | none => rfl
        | some bl =>
            have hd : bl.drop s.index = [] := by
              apply List.drop_eq_nil_of_le
              simpa [SQState.batchList, hbat] using hidx
            simp [hd, hnb]
      refine ⟨by rw [habs.1, hpre], by rw [habs.2]; exact h, ?_⟩
      intro hdec
      rw [decide_eq_false_iff_not] at hdec
      rw [List.isEmpty_iff] at hempty
      exfalso
      have hlen : 0 < (sqNextBatch s).batchList.length := by
        cases hbl : (sqNextBatch s).batchList with
        | nil => exact absurd hbl hempty
        | cons a l => simp
      have hidx0 := sqNextBatch_index s
      omega
  | case3 s hnb =>
      unfold sqHasNextLoop
      split
      · rename_i hcond
        exact absurd hcond hnb
      · refine ⟨rfl, h, ?_⟩
        intro _
        unfold sqAbs
        cases hbat : s.batch with
        | none =>
            rw [hbat] at hsome
            simp at hsome
        | some bl =>
            have hd : bl.drop s.index = [] := by
              apply List.drop_eq_nil_of_le
              simpa [SQState.batchList, hbat] using hidx
            have hnb2 : s.hasNextBatch = false := by
              cases hv : s.hasNextBatch
              · rfl
              · exact absurd hv hnb
            simp [hd, hnb2]

theorem sqHasNextLoop_false_flag (s : SQState)
    (h : (sqHasNextLoop s).1 = false) :
    (sqHasNextLoop s).2.hasNextBatch = false := by
  induction s using sqHasNextLoop.induct with
  | case1 s hnb s2 hempty ih =>
      have hs2 : s2 = sqNextBatch s := rfl
      rw [hs2] at hempty ih
      unfold sqHasNextLoop at h ⊢
      simp only [hnb, if_true, hempty] at h ⊢
      exact ih h
  | case2 s hnb s2 hempty =>
      have hs2 : s2 = sqNextBatch s := rfl
      rw [hs2] at hempty
      unfold sqHasNextLoop at h
      simp only [hnb, if_true, hempty, Bool.false_eq_true, if_false] at h
      rw [decide_eq_false_iff_not] at h
      rw [List.isEmpty_iff] at hempty
      exfalso
      have hlen : 0 < (sqNextBatch s).batchList.length := by
        cases hbl : (sqNextBatch s).batchList with
        | nil => exact absurd hbl hempty
        | cons a l => simp
      have hidx0 := sqNextBatch_index s
      omega
  | case3 s hnb =>
      unfold sqHasNextLoop
      split
      · rename_i hcond
        exact absurd hcond hnb
      · cases hv : s.hasNextBatch
        · rfl
        · exact absurd hv hnb

theorem sqHasNextStep_false_flag (s1 : SQState)
    (h : (sqHasNextStep s1).1 = false) :
    (sqHasNextStep s1).2.hasNextBatch = false := by
  unfold sqHasNextStep at h ⊢
  split at h
  · simp at h
  · rename_i hlt
    rw [if_neg hlt]
    exact sqHasNextLoop_false_flag _ h

/-- The single-query iterator never reports exhaustion while a next batch is
pending: a `False` from `has_next_async` leaves `_has_next_batch` unset. -/
theorem sqHasNext_false_flag (s : SQState)
    (h : (sqHasNext s).1 = false) :
    (sqHasNext s).2.hasNextBatch = false := by
  unfold sqHasNext at h ⊢
  exact sqHasNextStep_false_flag _ h

theorem sqHasNextStep_abs (s1 : SQState) (h : s1.ctx.cache = [])
    (hsome : s1.batch.isSome) :
    sqAbs (sqHasNextStep s1).2 = sqAbs s1
      ∧ (sqHasNextStep s1).2.ctx.cache = []
      ∧ ((sqHasNextStep s1).1 = false → sqAbs (sqHasNextStep s1).2 = []) := by
  unfold sqHasNextStep
  split
  · exact ⟨rfl, h, by simp⟩
  · rename_i hlt
    exact sqHasNextLoop_abs s1 h (by omega) hsome

theorem sqHasNext_abs (s : SQState) (h : s.ctx.cache = []) :
    sqAbs (sqHasNext s).2 = sqAbs s
      ∧ (sqHasNext s).2.ctx.cache = []
      ∧ ((sqHasNext s).1 = false → sqAbs (sqHasNext s).2 = []) := by
  unfold sqHasNext
  split
  · rename_i hn
    have habs := sqNextBatch_abs s h
    have h2 : (sqNextBatch s).ctx.cache = [] := by rw [habs.2]; exact h
    have hstep := sqHasNextStep_abs (sqNextBatch s) h2 (sqNextBatch_isSome s)
    have hpre : sqAbs s = joinPending s.backend := by
      unfold sqAbs
      rw [Option.isNone_iff_eq_none.mp hn]
    refine ⟨?_, hstep.2.1, hstep.2.2⟩
    rw [hstep.1, habs.1, hpre]
  · rename_i hn
    have hsome : s.batch.isSome := by
      cases hbat : s.batch
      · rw [hbat] at hn
        simp at hn
      · simp
    exact sqHasNextStep_abs s h hsome

/-- Simulation: with an empty context cache, draining a single-query iterator
yields exactly its abstraction. -/
theorem sqDrain_abs (s : SQState) (h : s.ctx.cache = []) :
    sqDrain s = sqAbs s := by
  generalize hm : sqMeasure s = n
  induction n using Nat.strong_induction_on generalizing s with
  | _ n ih =>
      subst hm
      rw [sqDrain]
      split
      · rename_i hn
        have hfalse : (sqHasNext s).1 = false := by
          unfold sqNext at hn
          split at hn
          · rename_i heq
            exact congrArg Prod.fst heq
          · exact absurd hn (by simp)
        have habs := sqHasNext_abs s h
        rw [← habs.1, habs.2.2 hfalse]
      · rename_i r s2 hn
        have hmeas := sqNext_measure s r s2 hn
        have habs := sqHasNext_abs s h
        obtain ⟨htrue, hr, hs2⟩ :
            (sqHasNext s).1 = true ∧ r = (sqHasNext s).2.batchList.getD (sqHasNext s).2.index default
              ∧ s2 = { (sqHasNext s).2 with
                  index := (sqHasNext s).2.index + 1,
                  cursorBefore := (sqHasNext s).2.cursorAfter,
                  cursorAfter := some ((sqHasNext s).2.batchList.getD (sqHasNext s).2.index default).cursor } := by
          unfold sqNext at hn
          split at hn
          · exact absurd hn (by simp)
          · rename_i heq
            simp only [Option.some.injEq, Prod.mk.injEq] at hn
            refine ⟨congrArg Prod.fst heq, ?_, ?_⟩
            · rw [← hn.1, congrArg Prod.snd heq]
            · rw [← hn.2, congrArg Prod.snd heq]
        have hidx := sqHasNext_true_index s htrue
        set s1 := (sqHasNext s).2 with hs1
        have hcache2 : s2.ctx.cache = [] := by
          rw [hs2]
          exact habs.2.1
        have hdrain2 := ih (sqMeasure s2) hmeas s2 hcache2 rfl
        rw [hdrain2]
        rw [← habs.1]
        cases hbat : s1.batch with
        | none =>
            rw [SQState.batchList, hbat] at hidx
            simp at hidx
        | some bl =>
            have hlen : s1.index < bl.length := by
              rw [SQState.batchList, hbat] at hidx
              simpa using hidx
            have habs1 : sqAbs s1 = bl.drop s1.index
                ++ (if s1.hasNextBatch then joinPending s1.backend else []) := by
              unfold sqAbs
              rw [hbat]
            have habs2 : sqAbs s2 = bl.drop (s1.index + 1)
                ++ (if s1.hasNextBatch then joinPending s1.backend else []) := by
              rw [hs2]
              unfold sqAbs
              simp only [hbat]
            have hrval : r = bl[s1.index] := by
              rw [hr, SQState.batchList, hbat]
              exact List.getD_eq_getElem bl default hlen
            rw [habs1, habs2, List.drop_eq_getElem_cons hlen, hrval]
            rfl

/-! ### The tombstone filter as a pure predicate -/

/-- A key whose cached entry is the tombstone `None`, under a policy that
caches this key: exactly the results `_next_batch` drops from a FULL batch. -/
def isTombstone (ctx : NdbContext) (key : Nat) : Bool :=
  ctx.useCache key && (ccLookup ctx.cache key == some none)

theorem ccLookup_delete_ne (c : ContextCacheData) (k k' : Nat) (h : k' ≠ k) :
    ccLookup (ccDelete c k) k' = ccLookup c k' := by
  induction c with
  | nil => rfl
  | cons p rest ih =>
      obtain ⟨pk, pv⟩ := p
      by_cases hpk : pk = k
      · subst hpk
        have h1 : ccDelete ((pk, pv) :: rest) pk = ccDelete rest pk := by
          unfold ccDelete
          exact List.filter_cons_of_neg (by simp)
        rw [h1, ih]
        have hkk : (pk == k') = false := by
          simp only [beq_eq_false_iff_ne]
          omega
        simp [ccLookup, hkk]
      · have h1 : ccDelete ((pk, pv) :: rest) k = (pk, pv) :: ccDelete rest k := by
          unfold ccDelete
          exact List.filter_cons_of_pos (by simpa using hpk)
        rw [h1]
        simp only [ccLookup]
        split
        · rfl
        · exact ih

theorem ccLookup_delete_self (c : ContextCacheData) (k : Nat) :
    ccLookup (ccDelete c k) k = none := by
  induction c with
  | nil => rfl
  | cons p rest ih =>
      obtain ⟨pk, pv⟩ := p
      by_cases hpk : pk = k
      · subst hpk
        have h1 : ccDelete ((pk, pv) :: rest) pk = ccDelete rest pk := by
          unfold ccDelete
          exact List.filter_cons_of_neg (by simp)
        rw [h1, ih]
      · have h1 : ccDelete ((pk, pv) :: rest) k = (pk, pv) :: ccDelete rest k := by
          unfold ccDelete
          exact List.filter_cons_of_pos (by simpa using hpk)
        rw [h1]
        have hkk : (pk == k) = false := by simpa using hpk
        simp [ccLookup, hkk, ih]

theorem checkCache_preserves_tombstone (ctx : NdbContext) (k k' : Nat) :
    isTombstone (checkCache ctx k).2 k' = isTombstone ctx k' := by
  unfold checkCache getAndValidate
  split
  · rename_i huse
    cases hlk : ccLookup ctx.cache k with
    | none => simp
    | some v =>
        cases v with
        | none => simp
        | some e =>
            by_cases hke : e.key == k
            · simp [hke]
            · simp only [hke, Bool.false_eq_true, if_false]
              unfold isTombstone
              simp only
              by_cases hkk : k' = k
              · subst hkk
                rw [ccLookup_delete_self, hlk]
                simp
              · rw [ccLookup_delete_ne ctx.cache k k' hkk]
  · rfl

theorem checkCache_fst_eq (ctx : NdbContext) (k : Nat) :
    ((checkCache ctx k).1 = .hit none) ↔ isTombstone ctx k = true := by
  unfold checkCache getAndValidate isTombstone
  split
  · rename_i huse
    cases hlk : ccLookup ctx.cache k with
    | none => simp [huse, hlk]
    | some v =>
        cases v with
        | none => simp [huse, hlk]
        | some e =>
            by_cases hke : e.key == k <;> simp [huse, hlk, hke]
  · rename_i huse
    rw [Bool.not_eq_true] at huse
    simp [huse]

theorem filterTombstones_eq_filter (ctx : NdbContext) (rs : List QResult) :
    (filterTombstones ctx rs).1
      = rs.filter (fun r => !(isTombstone ctx r.entity.key)) := by
  induction rs generalizing ctx with
  | nil => rfl
  | cons r rs ih =>
      simp only [filterTombstones]
      have hih : (filterTombstones (checkCache ctx r.entity.key).2 rs).1
          = rs.filter (fun x => !(isTombstone ctx x.entity.key)) := by
        rw [ih]
        apply List.filter_congr
        intro x _
        rw [checkCache_preserves_tombstone]
      by_cases htomb : isTombstone ctx r.entity.key = true
      · have hfst : (checkCache ctx r.entity.key).1 = .hit none :=
          (checkCache_fst_eq ctx r.entity.key).mpr htomb
        split
        · rw [List.filter_cons_of_neg (by simp [htomb])]
          exact hih
        · exact absurd hfst (by assumption)
      · have hfst : (checkCache ctx r.entity.key).1 ≠ .hit none := by
          intro hc
          exact htomb ((checkCache_fst_eq ctx r.entity.key).mp hc)
        split
        · rename_i heq
          exact absurd heq hfst
        · rw [List.filter_cons_of_pos (by simp [htomb])]
          simp only [List.cons.injEq, true_and]
          exact hih

/-! ## Claim theorems for the single-query iterator -/

/-- C3: for every single-query iterator fed a sequence of batches, draining
through `has_next`/`next` yields exactly the batches' results joined while the
`NOT_FINISHED` signal keeps further batches pending; zero-length batches
signalling `NOT_FINISHED` are skipped by the fetch loop rather than ending
iteration, and `has_next_async` never answers `False` while a next batch is
still pending (`_has_next_batch` is unset on every `False` answer). -/
theorem singleQuery_empty_batches_no_premature_exhaustion
    (q : QuerySpec) (policy : Nat → Bool) (bs : List WireBatch) (s : SQState) :
    sqDrain (sqInit q ⟨[], policy⟩ bs) = joinPending bs
      ∧ ((sqHasNext s).1 = false → (sqHasNext s).2.hasNextBatch = false) := by
  constructor
  · rw [sqDrain_abs _ rfl]
    rfl
  · exact sqHasNext_false_flag s

/-- The two results of the C3 example scenario. -/
def exResultE1 : QResult := ⟨.keyOnly, ⟨1, 1⟩, [1]⟩

def exResultE2 : QResult := ⟨.keyOnly, ⟨2, 2⟩, [2]⟩

/-- The C3 example backend: two empty `NOT_FINISHED` batches, then a final
batch carrying the two results. -/
def exBatchesC3 : List WireBatch :=
  [⟨[], .keyOnly, .notFinished, [8], 0⟩,
   ⟨[], .keyOnly, .notFinished, [9], 0⟩,
   ⟨[exResultE1, exResultE2], .keyOnly, .noMoreResults, [10], 0⟩]

/-- An empty query spec for the examples. -/
def exQuery : QuerySpec := ⟨none, none, none, none, none, none⟩

/-- Witness for C3: the example sequence `[], [], [e1, e2]` with
`NOT_FINISHED` on the first two yields exactly `e1, e2`, and an iterator whose
backend is exhausted answers `False` with no batch pending. -/
theorem singleQuery_empty_batches_no_premature_exhaustion_witness :
    sqDrain (sqInit exQuery ⟨[], fun _ => true⟩ exBatchesC3)
        = [exResultE1, exResultE2]
      ∧ (sqHasNext (sqInit exQuery ⟨[], fun _ => true⟩ [])).2.hasNextBatch
          = false := by
  have h := singleQuery_empty_batches_no_premature_exhaustion exQuery
    (fun _ => true) exBatchesC3 (sqInit exQuery ⟨[], fun _ => true⟩ [])
  refine ⟨?_, ?_⟩
  · rw [h.1]
    rfl
  · refine h.2 ?_
    simp [sqHasNext, sqInit, sqHasNextStep, sqNextBatch, SQState.batchList,
      sqHasNextLoop]

/-- C5: on every batch fetch whose response signals `NOT_FINISHED`, the query
spec used for the next batch has its start cursor advanced to the batch's end
cursor, its limit (when set) reduced by the number of results buffered from
the batch, and its offset (when set and non-zero, per the source's truthiness
policy) reduced by the server-reported skipped count; FULL results whose
identity resolves to a cached tombstone are dropped on the same transition
(possibly shortening the batch), while non-FULL batches are kept whole. -/
theorem singleQuery_next_batch_transition (s : SQState) (b : WireBatch)
    (rest : List WireBatch) (hb : s.backend = b :: rest)
    (hnf : b.moreResults = .notFinished) :
    (sqNextBatch s).query.startCursor = some b.endCursor
      ∧ (∀ l : Int, s.query.limit = some l →
          (sqNextBatch s).query.limit
            = some (l - (sqNextBatch s).batchList.length))
      ∧ (∀ o : Int, s.query.offset = some o → o ≠ 0 →
          (sqNextBatch s).query.offset = some (o - b.skippedResults))
      ∧ (b.resultType = .full →
          (sqNextBatch s).batchList
            = b.results.filter (fun r => !(isTombstone s.ctx r.entity.key)))
      ∧ (b.resultType ≠ .full → (sqNextBatch s).batchList = b.results)
      ∧ (sqNextBatch s).hasNextBatch = true := by
  by_cases hty : b.resultType = .full
  · rcases hres : filterTombstones s.ctx b.results with ⟨res, ctx2⟩
    have hres1 : res = b.results.filter (fun r => !(isTombstone s.ctx r.entity.key)) := by
      have hf := filterTombstones_eq_filter s.ctx b.results
      rw [hres] at hf
      exact hf
    refine ⟨?_, ?_, ?_, ?_, ?_, ?_⟩
    · simp [sqNextBatch, hb, hty, hres, hnf]
    · intro l hl
      simp [sqNextBatch, hb, hty, hres, hnf, hl, SQState.batchList]
    · intro o ho hne
      simp [sqNextBatch, hb, hty, hres, hnf, ho, pyTruthy, hne]
    · intro _
      simp [sqNextBatch, hb, hty, hres, SQState.batchList, hres1]
    · intro hc
      exact absurd hty hc
    · simp [sqNextBatch, hb, hty, hres, hnf]
  · refine ⟨?_, ?_, ?_, ?_, ?_, ?_⟩
    · simp [sqNextBatch, hb, hty, hnf]
    · intro l hl
      simp [sqNextBatch, hb, hty, hnf, hl, SQState.batchList]
    · intro o ho hne
      simp [sqNextBatch, hb, hty, hnf, ho, pyTruthy, hne]
    · intro hc
      exact absurd hc hty
    · intro _
      simp [sqNextBatch, hb, hty, SQState.batchList]
    · simp [sqNextBatch, hb, hty, hnf]

/-- The C5 example batch: two FULL results, one of which (key 5) has a cached
tombstone; `NOT_FINISHED`, end cursor `[77]`, 2 results skipped server-side. -/
def exBatchC5 : WireBatch :=
  ⟨[⟨.full, ⟨5, 50⟩, [3]⟩, ⟨.full, ⟨6, 60⟩, [4]⟩], .full, .notFinished, [77], 2⟩

/-- The C5 example iterator state: limit 10, offset 3, a cached tombstone for
key 5. -/
def exStateC5 : SQState :=
  ⟨⟨none, none, none, some 10, some 3, none⟩, none, 0, false, false,
    none, none, ⟨[(5, none)], fun _ => true⟩, [exBatchC5]⟩

/-- Witness for C5: on the example transition, the cursor advances to `[77]`,
the limit drops from 10 to 9 (one result was buffered after the tombstone
drop), the offset drops from 3 to 1 (2 results skipped), the tombstoned
result is gone, and a next batch is pending. -/
theorem singleQuery_next_batch_transition_witness :
    (sqNextBatch exStateC5).query.startCursor = some [77]
      ∧ (sqNextBatch exStateC5).query.limit = some 9
      ∧ (sqNextBatch exStateC5).query.offset = some 1
      ∧ (sqNextBatch exStateC5).batchList = [⟨.full, ⟨6, 60⟩, [4]⟩]
      ∧ (sqNextBatch exStateC5).hasNextBatch = true := by
  have h := singleQuery_next_batch_transition exStateC5 exBatchC5 [] rfl rfl
  have hfull : (sqNextBatch exStateC5).batchList = [⟨.full, ⟨6, 60⟩, [4]⟩] := by
    rw [h.2.2.2.1 rfl]
    rfl
  refine ⟨h.1, ?_, ?_, hfull, h.2.2.2.2.2⟩
  · have := h.2.1 10 rfl
    rw [hfull] at this
    simpa using this
  · have := h.2.2.1 3 rfl (by decide)
    simpa using this

/-! ## Claim theorems for the context cache and the lock sentinel -/

/-- C9: for a context cache holding an entry for key `k`, `get_and_validate`
returns the entry when it is the tombstone `None` or its identity still equals
`k`; when the identity was mutated, the entry is evicted and `KeyError` is
raised, the stale entity is not returned, and a re-lookup of `k` raises
`KeyError` again. -/
theorem contextCache_get_and_validate_identity (c : ContextCacheData) (k : Nat)
    (v : Option Entity) (hlk : ccLookup c k = some v) :
    (v = none → getAndValidate c k = (.ok none, c))
      ∧ (∀ e : Entity, v = some e → e.key = k →
          getAndValidate c k = (.ok (some e), c))
      ∧ (∀ e : Entity, v = some e → e.key ≠ k →
          (getAndValidate c k).1 = .error ()
            ∧ ccLookup (getAndValidate c k).2 k = none
            ∧ (getAndValidate (getAndValidate c k).2 k).1 = .error ()) := by
  refine ⟨?_, ?_, ?_⟩
  · intro hv
    subst hv
    simp [getAndValidate, hlk]
  · intro e hv hk
    subst hv
    simp [getAndValidate, hlk, hk]
  · intro e hv hk
    subst hv
    have hbeq : (e.key == k) = false := by simpa using hk
    have h1 : getAndValidate c k = (.error (), ccDelete c k) := by
      simp [getAndValidate, hlk, hbeq]
    rw [h1]
    refine ⟨rfl, ccLookup_delete_self c k, ?_⟩
    simp [getAndValidate, ccLookup_delete_self c k]

/-- Witness for C9: a tombstone is returned as-is, a matching entity is
returned, and a mutated entity (cached under key 3 but with `_key = 4`) is
evicted with `KeyError` raised on both the lookup and the re-lookup. -/
theorem contextCache_get_and_validate_identity_witness :
    getAndValidate [(1, none)] 1 = (.ok none, [(1, none)])
      ∧ getAndValidate [(2, some ⟨2, 9⟩)] 2
          = (.ok (some ⟨2, 9⟩), [(2, some ⟨2, 9⟩)])
      ∧ (getAndValidate [(3, some ⟨4, 9⟩)] 3).1 = .error ()
      ∧ ccLookup (getAndValidate [(3, some ⟨4, 9⟩)] 3).2 3 = none
      ∧ (getAndValidate (getAndValidate [(3, some ⟨4, 9⟩)] 3).2 3).1
          = .error () := by
  have h1 := contextCache_get_and_validate_identity [(1, none)] 1 none rfl
  have h2 := contextCache_get_and_validate_identity [(2, some ⟨2, 9⟩)] 2
    (some ⟨2, 9⟩) rfl
  have h3 := contextCache_get_and_validate_identity [(3, some ⟨4, 9⟩)] 3
    (some ⟨4, 9⟩) rfl
  have h3c := h3.2.2 ⟨4, 9⟩ rfl (by decide)
  exact ⟨h1.1 rfl, h2.2.1 ⟨2, 9⟩ rfl rfl, h3c.1, h3c.2.1, h3c.2.2⟩

/-- Counterexample for C7: `_cache.is_locked_value(0)` is `False` — the
`_cache.py` predicate does not treat the raw int marker `0` as the lock
sentinel, so the claim as stated fails on `_cache.is_locked_value`. -/
theorem cache_is_locked_value_rejects_int_marker :
    cacheIsLockedValue (.int 0) = false ∧ cacheIsLockedValue (.str "0") = false := by
  constructor
  · rfl
  · rfl

/-- C7 (amended): `remote_cache.is_locked_value` treats all three encodings
`0`, `"0"`, `b"0"` of the lock sentinel as equivalent; `_cache.is_locked_value`
recognizes exactly the bytes form `b"0"` (which is its own `_LOCKED` marker)
and rejects the int and str forms. -/
theorem is_locked_value_encodings :
    remoteIsLockedValue (.int 0) = true
      ∧ remoteIsLockedValue (.str "0") = true
      ∧ remoteIsLockedValue (.bytes [48]) = true
      ∧ (∀ v : PyVal, cacheIsLockedValue v = true ↔ v = .bytes [48]) := by
  refine ⟨rfl, rfl, rfl, ?_⟩
  intro v
  cases v <;> simp [cacheIsLockedValue, pyValEq, cacheLockedBytes]

/-! ## Claim theorems for the cursor round trip -/

theorem b64decChar_b64encChar : ∀ n < 64, b64decChar (b64encChar n) = n := by
  decide

theorem b64encChar_ne_pad : ∀ n < 64, b64encChar n ≠ 61 := by
  decide

theorem chunkDiv (x y n : Nat) (hn : 0 < n) (hy : y < n) : (x * n + y) / n = x := by
  rw [Nat.mul_comm, Nat.mul_add_div hn, Nat.div_eq_of_lt hy, Nat.add_zero]

theorem chunkMod (x y n : Nat) (hy : y < n) : (x * n + y) % n = y := by
  rw [Nat.mul_comm, Nat.mul_add_mod, Nat.mod_eq_of_lt hy]

theorem urlsafeB64_roundtrip (b : Bytes) (h : ∀ x ∈ b, x < 256) :
    urlsafeB64decode (urlsafeB64encode b) = b := by
  induction b using urlsafeB64encode.induct with
  | case1 => rfl
  | case2 a =>
      have ha : a < 256 := h a (by simp)
      have h1 : a / 4 < 64 := by omega
      have h2 : a % 4 * 16 < 64 := by omega
      have e1 : a / 4 * 4 + a % 4 * 16 / 16 = a := by
        rw [Nat.mul_div_cancel _ (by norm_num : (0:ℕ) < 16)]
        omega
      simp only [urlsafeB64encode, urlsafeB64decode, if_pos rfl, if_true,
        b64decChar_b64encChar _ h1, b64decChar_b64encChar _ h2, e1]
  | case3 a b =>
      have ha : a < 256 := h a (by simp)
      have hb : b < 256 := h b (by simp)
      have h1 : a / 4 < 64 := by omega
      have h2 : a % 4 * 16 + b / 16 < 64 := by omega
      have h3 : b % 16 * 4 < 64 := by omega
      have hne : b64encChar (b % 16 * 4) ≠ 61 := b64encChar_ne_pad _ h3
      have e1 : a / 4 * 4 + (a % 4 * 16 + b / 16) / 16 = a := by
        rw [chunkDiv _ _ 16 (by norm_num) (by omega)]
        omega
      have e2 : (a % 4 * 16 + b / 16) % 16 * 16 + b % 16 * 4 / 4 = b := by
        rw [chunkMod _ _ 16 (by omega), Nat.mul_div_cancel _ (by norm_num : (0:ℕ) < 4)]
        omega
      simp only [urlsafeB64encode, urlsafeB64decode, if_neg hne, if_pos rfl,
        if_true, b64decChar_b64encChar _ h1, b64decChar_b64encChar _ h2,
        b64decChar_b64encChar _ h3, e1, e2]
  | case4 a b c rest ih =>
      have ha : a < 256 := h a (by simp)
      have hb : b < 256 := h b (by simp)
      have hc : c < 256 := h c (by simp)
      have hrest : ∀ x ∈ rest, x < 256 := by
        intro x hx
        exact h x (by simp [hx])
      have h1 : a / 4 < 64 := by omega
      have h2 : a % 4 * 16 + b / 16 < 64 := by omega
      have h3 : b % 16 * 4 + c / 64 < 64 := by omega
      have h4 : c % 64 < 64 := by omega
      have hne3 : b64encChar (b % 16 * 4 + c / 64) ≠ 61 := b64encChar_ne_pad _ h3
      have hne4 : b64encChar (c % 64) ≠ 61 := b64encChar_ne_pad _ h4
      have e1 : a / 4 * 4 + (a % 4 * 16 + b / 16) / 16 = a := by
        rw [chunkDiv _ _ 16 (by norm_num) (by omega)]
        omega
      have e2 : (a % 4 * 16 + b / 16) % 16 * 16 + (b % 16 * 4 + c / 64) / 4 = b := by
        rw [chunkMod _ _ 16 (by omega), chunkDiv _ _ 4 (by norm_num) (by omega)]
        omega
      have e3 : (b % 16 * 4 + c / 64) % 4 * 64 + c % 64 = c := by
        rw [chunkMod _ _ 4 (by omega)]
        omega
      simp only [urlsafeB64encode, urlsafeB64decode, if_neg hne3, if_neg hne4,
        b64decChar_b64encChar _ h1, b64decChar_b64encChar _ h2,
        b64decChar_b64encChar _ h3, b64decChar_b64encChar _ h4, e1, e2, e3,
        ih hrest]

/-- Counterexample for C6: the round trip at the empty byte string gives a
cursor whose `cursor` attribute is `None`, not `b""` — `urlsafe_b64encode(b"")`
is the falsy `b""`, so `Cursor.__init__` never decodes it. -/
theorem cursor_roundtrip_empty_fails :
    cursorRoundTrip [] = some none
      ∧ some (none : Option Bytes) ≠ some (some ([] : Bytes)) := by
  refine ⟨rfl, by simp⟩

/-- C6 (amended): for every non-empty byte string,
`Cursor(urlsafe=Cursor(b).urlsafe()).cursor == b`. -/
theorem cursor_roundtrip_restores (b : Bytes) (hne : b ≠ [])
    (hlt : ∀ x ∈ b, x < 256) : cursorRoundTrip b = some (some b) := by
  have henc : (urlsafeB64encode b).isEmpty = false := by
    match b, hne with
    | a :: t, _ =>
        cases t with
        | nil => simp [urlsafeB64encode]
        | cons b2 t2 => cases t2 <;> simp [urlsafeB64encode]
  unfold cursorRoundTrip cursorNew cursorUrlsafe
  simp [pyBytesTruthy, henc, urlsafeB64_roundtrip b hlt]

/-- Witness for C6 (amended): the singleton byte string `[7]` round-trips. -/
theorem cursor_roundtrip_restores_witness :
    ([7] : Bytes) ≠ [] ∧ cursorRoundTrip [7] = some (some [7]) :=
  ⟨by decide, cursor_roundtrip_restores [7] (by decide) (by decide)⟩

/-! ## Global cache batches (`_cache.py`)

`_GlobalCacheGetBatch.__init__` stores futures in Python lists and appends
with `.append`; `_GlobalCacheSetBatch.__init__` and
`_GlobalCacheDeleteBatch.__init__` set `self.futures = []` (a list) but their
`add` methods call `self.futures.add(future)` — a method lists do not have, so
the call raises `AttributeError`.  The embedding keeps the list/set method
distinction: `add` on a list (and `append` on a set) raises.
-/

/-- A Python container that is either a `list` or a `set`. -/
inductive PyContainer where
  | pylist (xs : List Nat)
  | pyset (xs : List Nat)
deriving DecidableEq, Repr

/-- Python attribute access `container.add(x)`: only sets have `add`; on a
list it raises `AttributeError`. -/
def pyContainerAdd : PyContainer → Nat → Except Unit PyContainer
  | .pylist _, _ => .error ()
  | .pyset xs, x => .ok (.pyset (x :: xs))

/-- Python attribute access `container.append(x)`: only lists have `append`. -/
def pyContainerAppend : PyContainer → Nat → Except Unit PyContainer
  | .pylist xs, x => .ok (.pylist (xs ++ [x]))
  | .pyset _, _ => .error ()

/-- Dict update `d[k] = v` for byte-string keys. -/
def bdictSet (d : List (Bytes × Bytes)) (k v : Bytes) : List (Bytes × Bytes) :=
  match d with
  | [] => [(k, v)]
  | (k0, v0) :: rest => if k0 == k then (k, v) :: rest else (k0, v0) :: bdictSet rest k v

/-- `_cache._PREFIX = b"NDB30"` (ASCII). -/
def ndbKeyTag : Bytes := [78, 68, 66, 51, 48]

/-- `_GlobalCacheSetBatch`: `expires`, the `todo` dict, and `futures = []`
(a Python list). -/
structure GCSetBatch where
  expires : Option Int
  todo : List (Bytes × Bytes)
  futures : PyContainer
deriving DecidableEq, Repr

/-- `_GlobalCacheSetBatch.__init__(options)`. -/
def gcSetBatchInit (expires : Option Int) : GCSetBatch :=
  ⟨expires, [], .pylist []⟩

/-- `_GlobalCacheSetBatch.add(key, value)`: create a future, store the pair in
`todo`, then `self.futures.add(future)` — which raises on the list.  On
success the future would be returned. -/
def gcSetBatchAdd (b : GCSetBatch) (key value : Bytes) (fut : Nat) :
    Except Unit (Nat × GCSetBatch) :=
  let todo2 := bdictSet b.todo key value
  match pyContainerAdd b.futures fut with
  | .error e => .error e
  | .ok fs => .ok (fut, { b with todo := todo2, futures := fs })

/-- `_GlobalCacheDeleteBatch` (also the base of `_GlobalCacheWatchBatch`):
`keys = []` and `futures = []`, both Python lists. -/
structure GCDeleteBatch where
  keys : List Bytes
  futures : PyContainer
deriving DecidableEq, Repr

/-- `_GlobalCacheDeleteBatch.__init__(ignore_options)`. -/
def gcDeleteBatchInit : GCDeleteBatch := ⟨[], .pylist []⟩

/-- `_GlobalCacheDeleteBatch.add(key)`: `self.keys.append(key)` (fine on a
list), then `self.futures.add(future)` — which raises on the list. -/
def gcDeleteBatchAdd (b : GCDeleteBatch) (key : Bytes) (fut : Nat) :
    Except Unit (Nat × GCDeleteBatch) :=
  let keys2 := b.keys ++ [key]
  match pyContainerAdd b.futures fut with
  | .error e => .error e
  | .ok fs => .ok (fut, { b with keys := keys2, futures := fs })

/-- `_GlobalCacheGetBatch`: `todo` maps each key to the Python list of futures
waiting on it; `keys` is a list. -/
structure GCGetBatch where
  todo : List (Bytes × List Nat)
  keys : List Bytes
deriving DecidableEq, Repr

/-- `_GlobalCacheGetBatch.add(key)`: create a future, register the key on
first use, and `futures.append(future)` (lists do have `append`). -/
def gcGetBatchAdd (b : GCGetBatch) (key : Bytes) (fut : Nat) :
    Except Unit (Nat × GCGetBatch) :=
  match b.todo.lookup key with
  | none => .ok (fut, ⟨(key, [fut]) :: b.todo, b.keys ++ [key]⟩)
  | some futs =>
      .ok (fut, ⟨(key, futs ++ [fut]) :: (b.todo.filter (fun p => p.1 != key)),
        b.keys⟩)

/-- `_cache.global_set(key, value, expires=None)`: prefix the key, join the
tick's pending set batch (fresh here, as on the first call of a scheduling
tick, per the batch coordinator spec), and return the future `add` returns. -/
def globalSet (key value : Bytes) (expires : Option Int) (fut : Nat) :
    Except Unit Nat :=
  (gcSetBatchAdd (gcSetBatchInit expires) (ndbKeyTag ++ key) value fut).map
    Prod.fst

/-- `_cache.global_compare_and_swap`: same batch shape as `global_set`
(`_GlobalCacheCompareAndSwapBatch` subclasses `_GlobalCacheSetBatch` and
inherits its `add`). -/
def globalCompareAndSwap (key value : Bytes) (expires : Option Int)
    (fut : Nat) : Except Unit Nat :=
  (gcSetBatchAdd (gcSetBatchInit expires) (ndbKeyTag ++ key) value fut).map
    Prod.fst

/-- `_cache.global_delete(key)`. -/
def globalDelete (key : Bytes) (fut : Nat) : Except Unit Nat :=
  (gcDeleteBatchAdd gcDeleteBatchInit (ndbKeyTag ++ key) fut).map Prod.fst

/-- `_cache.global_watch(key)` (`_GlobalCacheWatchBatch` subclasses
`_GlobalCacheDeleteBatch` and inherits its `add`, including the
`self.futures = []` initialization). -/
def globalWatch (key : Bytes) (fut : Nat) : Except Unit Nat :=
  (gcDeleteBatchAdd gcDeleteBatchInit (ndbKeyTag ++ key) fut).map Prod.fst

/-- `_cache.global_get(key)`. -/
def globalGet (key : Bytes) (fut : Nat) : Except Unit Nat :=
  (gcGetBatchAdd ⟨[], []⟩ (ndbKeyTag ++ key) fut).map Prod.fst

/-- C8 (code bug): `global_get` returns its future, but `global_set`,
`global_delete`, `global_watch` and `global_compare_and_swap` raise
`AttributeError` instead of returning a future: their batches initialize
`self.futures` to a plain list and `add` calls the set-only method
`self.futures.add(future)` on it, contradicting the docstrings
("Returns: tasklets.Future"). -/
theorem global_cache_batch_futures_attribute_error :
    globalGet [1] 0 = .ok 0
      ∧ globalSet [1] [2] none 0 = .error ()
      ∧ globalDelete [1] 0 = .error ()
      ∧ globalWatch [1] 0 = .error ()
      ∧ globalCompareAndSwap [1] [2] none 0 = .error () := by
  exact ⟨rfl, rfl, rfl, rfl, rfl⟩

/-! ## The post-filter iterator (`_PostFilterQueryIteratorImpl`)

The wrapped raw single-query iterator (constructed over
`query.copy(offset=None, limit=None)`) is abstracted as the stream of results
it yields.
-/

/-- The state of a `_PostFilterQueryIteratorImpl`. -/
structure PFState where
  stream : List QResult
  offset : PyInt
  limit : PyInt
  nextResult : Option QResult
  cursorBefore : Option Bytes
  cursorAfter : Option Bytes
deriving Repr

/-- `_PostFilterQueryIteratorImpl.__init__`: the private offset and limit
counters come from the query spec; the underlying iterator gets neither. -/
def pfInit (q : QuerySpec) (stream : List QResult) : PFState :=
  ⟨stream, q.offset, q.limit, none, none, none⟩

/-- The `while True` pull loop of the post-filter `has_next_async`: draw raw
results, skip those failing the predicate (no accounting), then consume the
offset counter (skip without counting toward the limit), then decrement a
truthy limit; returns the buffered result (if any) and the consumed state. -/
def pfPull (p : Entity → Bool) :
    List QResult → PyInt → PyInt → Option QResult × List QResult × PyInt × PyInt
  | [], off, lim => (none, [], off, lim)
  | r :: rs, off, lim =>
      if !(p r.entity) then pfPull p rs off lim
      else if pyTruthy off then pfPull p rs (pyDec off) lim
      else if pyTruthy lim then (some r, rs, off, pyDec lim)
      else (some r, rs, off, lim)

/-- `_PostFilterQueryIteratorImpl.has_next_async`: `True` if a result is
buffered; `False` immediately when the limit counter is `0`; otherwise pull. -/
def pfHasNext (p : Entity → Bool) (s : PFState) : Bool × PFState :=
  if s.nextResult.isSome then (true, s)
  else if pyIsZero s.limit then (false, s)
  else
    match pfPull p s.stream s.offset s.limit with
    | (none, st, off, lim) =>
        (false, ⟨st, off, lim, s.nextResult, s.cursorBefore, s.cursorAfter⟩)
    | (some r, st, off, lim) =>
        (true, ⟨st, off, lim, some r, s.cursorAfter, some r.cursor⟩)

/-- `_PostFilterQueryIteratorImpl.next`: `StopIteration` becomes `none`,
otherwise the buffered result is returned and cleared. -/
def pfNext (p : Entity → Bool) (s : PFState) : Option (QResult × PFState) :=
  match pfHasNext p s with
  | (false, _) => none
  | (true, s1) =>
      match s1.nextResult with
      | some r => some (r, { s1 with nextResult := none })
      | none => none

theorem pfPull_some_length (p : Entity → Bool) (stream : List QResult)
    (off lim : PyInt) (r : QResult) (st : List QResult) (off2 lim2 : PyInt)
    (h : pfPull p stream off lim = (some r, st, off2, lim2)) :
    st.length < stream.length := by
  induction stream generalizing off lim with
  | nil => simp [pfPull] at h
  | cons x rs ih =>
      simp only [pfPull] at h
      split at h
      · exact Nat.lt_succ_of_lt (ih _ _ h)
      · split at h
        · exact Nat.lt_succ_of_lt (ih _ _ h)
        · split at h <;>
            · simp only [Prod.mk.injEq, Option.some.injEq] at h
              rw [← h.2.1]
              simp

/-- Measure decreased by every successful `pfNext`. -/
def pfMeasure (s : PFState) : Nat :=
  s.stream.length + (if s.nextResult.isSome then 1 else 0)

theorem pfNext_measure (p : Entity → Bool) (s : PFState) (r : QResult)
    (s2 : PFState) (h : pfNext p s = some (r, s2)) :
    pfMeasure s2 < pfMeasure s := by
  unfold pfNext at h
  split at h
  · exact absurd h (by simp)
  · rename_i pair s1 heq
    split at h
    · rename_i r0 hr0
      simp only [Option.some.injEq, Prod.mk.injEq] at h
      have hs2 : s2 = { s1 with nextResult := none } := h.2.symm
      unfold pfHasNext at heq
      split at heq
      · rename_i hbuf
        have hs1 : s1 = s := by
          simpa using heq.symm
        subst hs1
        rw [hs2]
        simp [pfMeasure, hbuf]
      · split at heq
        · exact absurd heq (by simp)
        · split at heq
          · exact absurd heq (by simp)
          · rename_i r1 st off lim hpull
            have hs1 : s1 = ⟨st, off, lim, some r1, s.cursorAfter, some r1.cursor⟩ := by
              simpa using heq.symm
            have hlen := pfPull_some_length p s.stream s.offset s.limit r1 st off
              lim hpull
            rw [hs2, hs1]
            simp only [pfMeasure]
            simp
            omega
    · exact absurd h (by simp)

/-- Draining a post-filter iterator through `has_next`/`next`. -/
def pfDrainS (p : Entity → Bool) (s : PFState) : List QResult :=
  match hn : pfNext p s with
  | none => []
  | some (r, s2) => r :: pfDrainS p s2
termination_by pfMeasure s
decreasing_by exact pfNext_measure p s _ _ hn

/-- The post-filter drain as a function of the raw stream and the counters
(the iterator state with no buffered result). -/
def pfDrain (p : Entity → Bool) (stream : List QResult) (off lim : PyInt) :
    List QResult :=
  if pyIsZero lim then []
  else
    match hp : pfPull p stream off lim with
    | (none, _, _, _) => []
    | (some r, st, off2, lim2) => r :: pfDrain p st off2 lim2
termination_by stream.length
decreasing_by exact pfPull_some_length p stream off lim _ _ _ _ hp

theorem pfDrain_eq_of_not_zero (p : Entity → Bool) (stream : List QResult)
    (off lim : PyInt) (hz : pyIsZero lim = false) :
    pfDrain p stream off lim
      = match pfPull p stream off lim with
        | (none, _, _, _) => []
        | (some r, st, off2, lim2) => r :: pfDrain p st off2 lim2 := by
  conv_lhs => rw [pfDrain]
  rw [if_neg (by simp [hz])]
  split
  · rename_i a b c heq
    simp [heq]
  · rename_i r st o2 l2 heq
    simp [heq]

/-- Draining through `has_next`/`next` from a buffer-free state computes
`pfDrain`. -/
theorem pfDrainS_eq_pfDrain (p : Entity → Bool) (stream : List QResult)
    (off lim : PyInt) (cb ca : Option Bytes) :
    pfDrainS p ⟨stream, off, lim, none, cb, ca⟩ = pfDrain p stream off lim := by
  generalize hm : stream.length = n
  induction n using Nat.strong_induction_on generalizing stream off lim cb ca with
  | _ n ih =>
      subst hm
      by_cases hz : pyIsZero lim = true
      · have h1 : pfNext p ⟨stream, off, lim, none, cb, ca⟩ = none := by
          unfold pfNext pfHasNext
          simp [hz]
        rw [pfDrainS]
        split
        · rw [pfDrain]
          simp [hz]
        · rename_i r s2 hn
          rw [h1] at hn
          exact absurd hn (by simp)
      · have hz2 : pyIsZero lim = false := by simpa using hz
        rcases hpull : pfPull p stream off lim with ⟨ro, st, off2, lim2⟩
        cases ro with
        | none =>
            have h1 : pfNext p ⟨stream, off, lim, none, cb, ca⟩ = none := by
              unfold pfNext pfHasNext
              simp [hz, hpull]
            rw [pfDrainS]
            split
            · rw [pfDrain_eq_of_not_zero p stream off lim hz2]
              simp [hpull]
            · rename_i r s2 hn
              rw [h1] at hn
              exact absurd hn (by simp)
        | some r =>
            have h1 : pfNext p ⟨stream, off, lim, none, cb, ca⟩
                = some (r, ⟨st, off2, lim2, none, ca, some r.cursor⟩) := by
              unfold pfNext pfHasNext
              simp [hz, hpull]
            have hlen := pfPull_some_length p stream off lim r st off2 lim2 hpull
            rw [pfDrainS]
            split
            · rename_i hn
              rw [h1] at hn
              exact absurd hn (by simp)
            · rename_i r2 s2 hn
              rw [h1] at hn
              simp only [Option.some.injEq, Prod.mk.injEq] at hn
              rw [pfDrain_eq_of_not_zero p stream off lim hz2]
              simp only [hpull]
              rw [hn.1, ← hn.2]
              exact congrArg (fun x => _ :: x)
                (ih st.length hlen st off2 lim2 ca (some r.cursor) rfl)

/-- The skip count a Python offset stands for. -/
def offDrop : PyInt → Nat
  | none => 0
  | some o => o.toNat

/-- The truncation a Python limit stands for (`None` = unlimited). -/
def limTake : PyInt → List QResult → List QResult
  | none, xs => xs
  | some l, xs => xs.take l.toNat

/-- The post-filter drain is the contiguous slice of the filtered stream:
drop the offset, then take the limit. -/
theorem pfDrain_slice (p : Entity → Bool) (stream : List QResult) :
    ∀ off lim : PyInt,
      (off = none ∨ ∃ o : Nat, off = some (o : Int)) →
      (lim = none ∨ ∃ l : Nat, lim = some (l : Int)) →
      pfDrain p stream off lim
        = limTake lim ((stream.filter (fun r => p r.entity)).drop (offDrop off)) := by
  induction stream with
  | nil =>
      intro off lim _ _
      rw [pfDrain]
      cases lim <;> split <;> simp_all [pfPull, limTake]
  | cons r rs ih =>
      intro off lim hoff hlim
      by_cases hz : pyIsZero lim = true
      · obtain ⟨l, hl⟩ : ∃ l : Int, lim = some l := by
          cases lim with
          | none => simp [pyIsZero] at hz
          | some l => exact ⟨l, rfl⟩
        have hl0 : l = 0 := by
          rw [hl] at hz
          simpa [pyIsZero] using hz
        conv_lhs => rw [pfDrain]
        rw [if_pos hz]
        simp [hl, hl0, limTake]
      · have hz2 : pyIsZero lim = false := by simpa using hz
        by_cases hp : p r.entity
        · by_cases hofft : pyTruthy off = true
          · obtain ⟨o, ho⟩ : ∃ o : Nat, off = some (o : Int) := by
              rcases hoff with h | ⟨o, ho⟩
              · rw [h] at hofft
                simp [pyTruthy] at hofft
              · exact ⟨o, ho⟩
            have ho1 : 1 ≤ o := by
              rw [ho] at hofft
              simp [pyTruthy] at hofft
              omega
            have hpull : pfPull p (r :: rs) off lim = pfPull p rs (pyDec off) lim := by
              simp [pfPull, hp, hofft]
            have hdec : pyDec off = some ((o - 1 : Nat) : Int) := by
              rw [ho]
              simp [pyDec]
              omega
            rw [pfDrain_eq_of_not_zero p (r :: rs) off lim hz2, hpull,
              ← pfDrain_eq_of_not_zero p rs (pyDec off) lim hz2,
              ih (pyDec off) lim (Or.inr ⟨o - 1, hdec⟩) hlim,
              List.filter_cons_of_pos (by simp [hp])]
            have hdrop1 : offDrop (pyDec off) = o - 1 := by
              rw [hdec]
              simp [offDrop]
            have hdrop2 : offDrop off = (o - 1) + 1 := by
              rw [ho]
              simp [offDrop]
              omega
            rw [hdrop1, hdrop2, List.drop_succ_cons]
          · have hod : offDrop off = 0 := by
              rcases hoff with h | ⟨o, ho⟩
              · rw [h]
                rfl
              · rw [ho] at hofft ⊢
                simp [pyTruthy] at hofft
                simp [offDrop, hofft]
            by_cases hlt : pyTruthy lim = true
            · obtain ⟨l, hl⟩ : ∃ l : Nat, lim = some (l : Int) := by
                rcases hlim with h | hsome
                · rw [h] at hlt
                  simp [pyTruthy] at hlt
                · exact hsome
              have hl1 : 1 ≤ l := by
                rw [hl] at hz2
                simp [pyIsZero] at hz2
                omega
              have hpull : pfPull p (r :: rs) off lim
                  = (some r, rs, off, pyDec lim) := by
                simp [pfPull, hp, hofft, hlt]
              have hdec : pyDec lim = some ((l - 1 : Nat) : Int) := by
                rw [hl]
                simp [pyDec]
                omega
              rw [pfDrain_eq_of_not_zero p (r :: rs) off lim hz2]
              simp only [hpull]
              rw [ih off (pyDec lim) hoff (Or.inr ⟨l - 1, hdec⟩),
                List.filter_cons_of_pos (by simp [hp]), hod, List.drop_zero,
                hdec, hl]
              simp only [limTake, hod, List.drop_zero]
              have h1 : ((l : Int)).toNat = (l - 1) + 1 := by omega
              have h2 : (((l - 1 : Nat) : Int)).toNat = l - 1 := by omega
              rw [h1, h2, List.take_succ_cons]
            · have hnone : lim = none := by
                rcases hlim with h | ⟨l, hl⟩
                · exact h
                · rw [hl] at hlt hz2
                  simp [pyTruthy] at hlt
                  rw [hlt] at hz2
                  simp [pyIsZero] at hz2
              have hpull : pfPull p (r :: rs) off lim = (some r, rs, off, lim) := by
                simp [pfPull, hp, hofft, hlt]
              rw [pfDrain_eq_of_not_zero p (r :: rs) off lim hz2]
              simp only [hpull]
              rw [ih off lim hoff hlim, List.filter_cons_of_pos (by simp [hp]),
                hod, List.drop_zero, hnone]
              simp [limTake, hod]
        · have hpull : pfPull p (r :: rs) off lim = pfPull p rs off lim := by
            simp [pfPull, hp]
          rw [pfDrain_eq_of_not_zero p (r :: rs) off lim hz2, hpull,
            ← pfDrain_eq_of_not_zero p rs off lim hz2,
            ih off lim hoff hlim, List.filter_cons_of_neg (by simp [hp])]

/-! ## The multi-query (fan-out/merge) iterator (`_MultiQueryIteratorImpl`)

Each sub-iterator (one per disjunct, built over the disjunct's query with
offset and limit stripped) is abstracted as the list of results it yields;
"has a next result" is non-emptiness and `_peek`/`next` read the head.  The
`_Result.__lt__` comparison under the query's `order_by` is abstracted as a
comparison function `lt`.
-/

/-- Python truthiness of the optional `order_by` list
(`self._sortable = bool(query.order_by)`). -/
def pyListTruthy : Option (List String) → Bool
  | none => false
  | some l => !l.isEmpty

/-- The state of a `_MultiQueryIteratorImpl`. -/
structure MQState where
  resultSets : List (List QResult)
  sortable : Bool
  seenKeys : List Nat
  nextResult : Option QResult
  offset : PyInt
  limit : PyInt

/-- `_MultiQueryIteratorImpl.__init__` over already-built sub-result-sets. -/
def mqInit (q : QuerySpec) (sets : List (List QResult)) : MQState :=
  ⟨sets, pyListTruthy q.orderByNames, [], none, q.offset, q.limit⟩

/-- The `for i, result_set in enumerate(result_sets[1:], 1)` minimum scan:
strict `<` updates, so ties keep the earliest index. -/
def minIndexLoop (lt : QResult → QResult → Bool) :
    Nat → Nat → QResult → List (List QResult) → Nat
  | _, minIdx, _, [] => minIdx
  | i, minIdx, minVal, s :: rest =>
      let v := s.headD default
      if lt v minVal then minIndexLoop lt (i + 1) i v rest
      else minIndexLoop lt (i + 1) minIdx minVal rest

/-- Index of the minimum buffered head among the surviving sub-iterators. -/
def mqMinIndex (lt : QResult → QResult → Bool) (first : List QResult)
    (rest : List (List QResult)) : Nat :=
  minIndexLoop lt 1 0 (first.headD default) rest

/-- Pop the head of the i-th sub-result-set (`result_sets[i].next()`). -/
def behead : List (List QResult) → Nat → List (List QResult)
  | [], _ => []
  | s :: rest, 0 => s.tail :: rest
  | s :: rest, n + 1 => s :: behead rest n

/-- One selection step of the merge loop: concurrently poll every sub-iterator
and drop the exhausted ones (`has_nexts` fan-out plus the filter), report
exhaustion if none survive, else pick the minimum head when sorting or the
first survivor's head otherwise. -/
def mqStep (lt : QResult → QResult → Bool) (sortable : Bool)
    (sets : List (List QResult)) : Option (QResult × List (List QResult)) :=
  match sets.filter (fun s => !s.isEmpty) with
  | [] => none
  | first :: rest =>
      if sortable then
        let i := mqMinIndex lt first rest
        some (((first :: rest).getD i []).headD default, behead (first :: rest) i)
      else
        some (first.headD default, first.tail :: rest)

/-- Total number of buffered results across the sub-iterators. -/
def totalSize (sets : List (List QResult)) : Nat :=
  (sets.map List.length).sum

theorem minIndexLoop_lt (lt : QResult → QResult → Bool)
    (rest : List (List QResult)) :
    ∀ (i minIdx : Nat) (minVal : QResult), minIdx < i →
      minIndexLoop lt i minIdx minVal rest < i + rest.length := by
  induction rest with
  | nil =>
      intro i minIdx minVal h
      simpa [minIndexLoop] using h
  | cons s rest ih =>
      intro i minIdx minVal h
      simp only [minIndexLoop]
      split
      · have := ih (i + 1) i (s.headD default) (by omega)
        simp only [List.length_cons]
        omega
      · have := ih (i + 1) minIdx minVal (by omega)
        simp only [List.length_cons]
        omega

theorem mqMinIndex_lt (lt : QResult → QResult → Bool) (first : List QResult)
    (rest : List (List QResult)) :
    mqMinIndex lt first rest < (first :: rest).length := by
  have h := minIndexLoop_lt lt rest 1 0 (first.headD default) (by omega)
  simp only [mqMinIndex, List.length_cons]
  omega

theorem flatten_filter_nonempty (sets : List (List QResult)) :
    (sets.filter (fun s => !s.isEmpty)).flatten = sets.flatten := by
  induction sets with
  | nil => rfl
  | cons s rest ih =>
      by_cases hs : s.isEmpty
      · have hnil : s = [] := List.isEmpty_iff.mp hs
        rw [List.filter_cons_of_neg (by simp [hs])]
        simp [hnil, ih]
      · rw [List.filter_cons_of_pos (by simp [hs])]
        simp [ih]

theorem behead_flatten (sets : List (List QResult)) :
    ∀ (i : Nat) (x : QResult), (sets.getD i []).head? = some x →
      sets.flatten.Perm (x :: (behead sets i).flatten) := by
  induction sets with
  | nil =>
      intro i x hx
      simp at hx
  | cons s rest ih =>
      intro i x hx
      cases i with
      | zero =>
          simp only [List.getD_cons_zero] at hx
          obtain ⟨xs, hxs⟩ : ∃ xs, s = x :: xs := by
            cases s with
            | nil => simp at hx
            | cons a as =>
                simp at hx
                exact ⟨as, by rw [hx]⟩
          subst hxs
          simp [behead]
      | succ n =>
          simp only [List.getD_cons_succ] at hx
          have hperm := ih n x hx
          simp only [behead, List.flatten_cons]
          exact (hperm.append_left s).trans List.perm_middle

theorem mqStep_of_filter_nil (lt : QResult → QResult → Bool) (sortable : Bool)
    (sets : List (List QResult))
    (hf : sets.filter (fun s => !s.isEmpty) = []) :
    mqStep lt sortable sets = none := by
  unfold mqStep
  rw [hf]

theorem mqStep_of_filter_cons_sorted (lt : QResult → QResult → Bool)
    (sets first rest) (hf : sets.filter (fun s => !s.isEmpty) = first :: rest) :
    mqStep lt true sets
      = some (((first :: rest).getD (mqMinIndex lt first rest) []).headD default,
          behead (first :: rest) (mqMinIndex lt first rest)) := by
  unfold mqStep
  rw [hf]
  rfl

theorem mqStep_of_filter_cons_unsorted (lt : QResult → QResult → Bool)
    (sets first rest) (hf : sets.filter (fun s => !s.isEmpty) = first :: rest) :
    mqStep lt false sets = some (first.headD default, first.tail :: rest) := by
  unfold mqStep
  rw [hf]
  rfl

theorem mqStep_perm (lt : QResult → QResult → Bool) (sortable : Bool)
    (sets : List (List QResult)) (r : QResult) (sets2 : List (List QResult))
    (h : mqStep lt sortable sets = some (r, sets2)) :
    sets.flatten.Perm (r :: sets2.flatten) := by
  rw [← flatten_filter_nonempty sets]
  rcases hf : sets.filter (fun s => !s.isEmpty) with _ | ⟨first, rest⟩
  · rw [mqStep_of_filter_nil lt sortable sets hf] at h
    simp at h
  · cases sortable with
    | true =>
        rw [mqStep_of_filter_cons_sorted lt sets first rest hf] at h
        simp only [Option.some.injEq, Prod.mk.injEq] at h
        have hi := mqMinIndex_lt lt first rest
        set i := mqMinIndex lt first rest with hidef
        have hmem : (first :: rest).getD i [] ∈ first :: rest := by
          rw [List.getD_eq_getElem _ _ hi]
          exact List.getElem_mem hi
        have hmem2 : (first :: rest).getD i [] ∈ sets.filter (fun s => !s.isEmpty) := by
          rw [hf]
          exact hmem
        have hne : ((first :: rest).getD i []).isEmpty = false := by
          have h3 := List.of_mem_filter hmem2
          simpa using h3
        have hhead : ((first :: rest).getD i []).head? =
            some (((first :: rest).getD i []).headD default) := by
          cases hc : (first :: rest).getD i [] with
          | nil =>
              rw [hc] at hne
              simp at hne
          | cons a as => simp
        have hperm := behead_flatten (first :: rest) i _ hhead
        rw [hf, ← h.1, ← h.2]
        exact hperm
    | false =>
        rw [mqStep_of_filter_cons_unsorted lt sets first rest hf] at h
        simp only [Option.some.injEq, Prod.mk.injEq] at h
        have hmem2 : first ∈ sets.filter (fun s => !s.isEmpty) := by
          rw [hf]
          exact List.mem_cons_self first rest
        have hne : first.isEmpty = false := by
          have h3 := List.of_mem_filter hmem2
          simpa using h3
        rcases hc : first with _ | ⟨a, as⟩
        · rw [hc] at hne
          simp at hne
        · rw [hf, ← h.1, ← h.2]
          simp [hc]

theorem mqStep_size (lt : QResult → QResult → Bool) (sortable : Bool)
    (sets : List (List QResult)) (r : QResult) (sets2 : List (List QResult))
    (h : mqStep lt sortable sets = some (r, sets2)) :
    totalSize sets2 < totalSize sets := by
  have hperm := mqStep_perm lt sortable sets r sets2 h
  have hlen := hperm.length_eq
  simp only [List.length_flatten, List.length_cons] at hlen
  simp only [totalSize]
  omega

theorem mqStep_none_flatten (lt : QResult → QResult → Bool) (sortable : Bool)
    (sets : List (List QResult)) (h : mqStep lt sortable sets = none) :
    sets.flatten = [] := by
  rcases hf : sets.filter (fun s => !s.isEmpty) with _ | ⟨first, rest⟩
  · rw [← flatten_filter_nonempty sets, hf]
    rfl
  · exfalso
    cases sortable with
    | true =>
        rw [mqStep_of_filter_cons_sorted lt sets first rest hf] at h
        simp at h
    | false =>
        rw [mqStep_of_filter_cons_unsorted lt sets first rest hf] at h
        simp at h

/-- The `while True` pull loop of the multi-query `has_next_async`: select via
`mqStep`; discard a result whose serialized identity was already seen and
retry (no accounting); record a fresh identity, then consume the offset
counter (retrying the pull), then decrement a truthy limit.  Returns the
buffered result (if any) together with the final result sets, seen keys,
offset and limit. -/
def mqPullC (lt : QResult → QResult → Bool) (sortable : Bool)
    (sets : List (List QResult)) (seen : List Nat) (off lim : PyInt) :
    Option QResult × List (List QResult) × List Nat × PyInt × PyInt :=
  match hstep : mqStep lt sortable sets with
  | none => (none, sets.filter (fun s => !s.isEmpty), seen, off, lim)
  | some (r, sets2) =>
      if r.hashKey ∈ seen then mqPullC lt sortable sets2 seen off lim
      else
        if pyTruthy off then
          mqPullC lt sortable sets2 (r.hashKey :: seen) (pyDec off) lim
        else if pyTruthy lim then (some r, sets2, r.hashKey :: seen, off, pyDec lim)
        else (some r, sets2, r.hashKey :: seen, off, lim)
termination_by totalSize sets
decreasing_by
  · exact mqStep_size lt sortable sets _ _ hstep
  · exact mqStep_size lt sortable sets _ _ hstep

theorem mqPullC_eq (lt : QResult → QResult → Bool) (sortable : Bool)
    (sets : List (List QResult)) (seen : List Nat) (off lim : PyInt) :
    mqPullC lt sortable sets seen off lim
      = match mqStep lt sortable sets with
        | none => (none, sets.filter (fun s => !s.isEmpty), seen, off, lim)
        | some (r, sets2) =>
            if r.hashKey ∈ seen then mqPullC lt sortable sets2 seen off lim
            else
              if pyTruthy off then
                mqPullC lt sortable sets2 (r.hashKey :: seen) (pyDec off) lim
              else if pyTruthy lim then
                (some r, sets2, r.hashKey :: seen, off, pyDec lim)
              else (some r, sets2, r.hashKey :: seen, off, lim) := by
  conv_lhs => rw [mqPullC]
  split
  · rename_i heq
    simp [heq]
  · rename_i r sets2 heq
    simp [heq]

theorem mqPullC_of_step_none (lt : QResult → QResult → Bool) (sortable : Bool)
    (sets : List (List QResult)) (seen : List Nat) (off lim : PyInt)
    (hstep : mqStep lt sortable sets = none) :
    mqPullC lt sortable sets seen off lim
      = (none, sets.filter (fun s => !s.isEmpty), seen, off, lim) := by
  rw [mqPullC_eq, hstep]

theorem mqPullC_of_dup (lt : QResult → QResult → Bool) (sortable : Bool)
    (sets : List (List QResult)) (seen : List Nat) (off lim : PyInt)
    (r : QResult) (sets2 : List (List QResult))
    (hstep : mqStep lt sortable sets = some (r, sets2))
    (hmem : r.hashKey ∈ seen) :
    mqPullC lt sortable sets seen off lim
      = mqPullC lt sortable sets2 seen off lim := by
  rw [mqPullC_eq, hstep]
  simp [hmem]

theorem mqPullC_of_offset (lt : QResult → QResult → Bool) (sortable : Bool)
    (sets : List (List QResult)) (seen : List Nat) (off lim : PyInt)
    (r : QResult) (sets2 : List (List QResult))
    (hstep : mqStep lt sortable sets = some (r, sets2))
    (hmem : r.hashKey ∉ seen) (hofft : pyTruthy off = true) :
    mqPullC lt sortable sets seen off lim
      = mqPullC lt sortable sets2 (r.hashKey :: seen) (pyDec off) lim := by
  rw [mqPullC_eq, hstep]
  simp [hmem, hofft]

theorem mqPullC_of_limit (lt : QResult → QResult → Bool) (sortable : Bool)
    (sets : List (List QResult)) (seen : List Nat) (off lim : PyInt)
    (r : QResult) (sets2 : List (List QResult))
    (hstep : mqStep lt sortable sets = some (r, sets2))
    (hmem : r.hashKey ∉ seen) (hofff : pyTruthy off = false)
    (hlimt : pyTruthy lim = true) :
    mqPullC lt sortable sets seen off lim
      = (some r, sets2, r.hashKey :: seen, off, pyDec lim) := by
  rw [mqPullC_eq, hstep]
  simp [hmem, hofff, hlimt]

theorem mqPullC_of_nolimit (lt : QResult → QResult → Bool) (sortable : Bool)
    (sets : List (List QResult)) (seen : List Nat) (off lim : PyInt)
    (r : QResult) (sets2 : List (List QResult))
    (hstep : mqStep lt sortable sets = some (r, sets2))
    (hmem : r.hashKey ∉ seen) (hofff : pyTruthy off = false)
    (hlimf : pyTruthy lim = false) :
    mqPullC lt sortable sets seen off lim
      = (some r, sets2, r.hashKey :: seen, off, lim) := by
  rw [mqPullC_eq, hstep]
  simp [hmem, hofff, hlimf]

theorem mqPullC_size (lt : QResult → QResult → Bool) (sortable : Bool) :
    ∀ (sets : List (List QResult)) (seen : List Nat) (off lim : PyInt)
      (r : QResult) (sets2 : List (List QResult)) (seen2 : List Nat)
      (off2 lim2 : PyInt),
      mqPullC lt sortable sets seen off lim = (some r, sets2, seen2, off2, lim2) →
      totalSize sets2 < totalSize sets := by
  intro sets
  generalize hm : totalSize sets = n
  induction n using Nat.strong_induction_on generalizing sets with
  | _ n ih =>
      subst hm
      intro seen off lim r sets2 seen2 off2 lim2 h
      rcases hstep : mqStep lt sortable sets with _ | ⟨r0, setsMid⟩
      · rw [mqPullC_of_step_none lt sortable sets seen off lim hstep] at h
        simp at h
      · have hsz := mqStep_size lt sortable sets r0 setsMid hstep
        by_cases hmem : r0.hashKey ∈ seen
        · rw [mqPullC_of_dup lt sortable sets seen off lim r0 setsMid hstep hmem] at h
          exact lt_trans (ih (totalSize setsMid) hsz setsMid rfl seen off lim
            r sets2 seen2 off2 lim2 h) hsz
        · by_cases hofft : pyTruthy off = true
          · rw [mqPullC_of_offset lt sortable sets seen off lim r0 setsMid hstep
              hmem hofft] at h
            exact lt_trans (ih (totalSize setsMid) hsz setsMid rfl _ _ _
              r sets2 seen2 off2 lim2 h) hsz
          · have hofff : pyTruthy off = false := by simpa using hofft
            by_cases hlimt : pyTruthy lim = true
            · rw [mqPullC_of_limit lt sortable sets seen off lim r0 setsMid hstep
                hmem hofff hlimt] at h
              simp only [Prod.mk.injEq, Option.some.injEq] at h
              rw [← h.2.1]
              exact hsz
            · have hlimf : pyTruthy lim = false := by simpa using hlimt
              rw [mqPullC_of_nolimit lt sortable sets seen off lim r0 setsMid hstep
                hmem hofff hlimf] at h
              simp only [Prod.mk.injEq, Option.some.injEq] at h
              rw [← h.2.1]
              exact hsz

/-- The multi-query drain as a function of the sub-result-sets, the seen-key
set and the counters (the iterator state with no buffered result). -/
def mqDrain (lt : QResult → QResult → Bool) (sortable : Bool)
    (sets : List (List QResult)) (seen : List Nat) (off lim : PyInt) :
    List QResult :=
  if pyIsZero lim then []
  else
    match hc : mqPullC lt sortable sets seen off lim with
    | (none, _, _, _, _) => []
    | (some r, sets2, seen2, off2, lim2) =>
        r :: mqDrain lt sortable sets2 seen2 off2 lim2
termination_by totalSize sets
decreasing_by exact mqPullC_size lt sortable sets seen off lim _ _ _ _ _ hc

theorem mqDrain_eq_of_not_zero (lt : QResult → QResult → Bool) (sortable : Bool)
    (sets : List (List QResult)) (seen : List Nat) (off lim : PyInt)
    (hz : pyIsZero lim = false) :
    mqDrain lt sortable sets seen off lim
      = match mqPullC lt sortable sets seen off lim with
        | (none, _, _, _, _) => []
        | (some r, sets2, seen2, off2, lim2) =>
            r :: mqDrain lt sortable sets2 seen2 off2 lim2 := by
  conv_lhs => rw [mqDrain]
  rw [if_neg (by simp [hz])]
  split
  · rename_i a b c d heq
    simp [heq]
  · rename_i r sets2 seen2 off2 lim2 heq
    simp [heq]

/-- The post-merge, deduplicated stream a multi-query produces when no offset
or limit applies. -/
def mqStream (lt : QResult → QResult → Bool) (sortable : Bool)
    (sets : List (List QResult)) (seen : List Nat) : List QResult :=
  mqDrain lt sortable sets seen none none

theorem mqDrain_of_pullC_none (lt : QResult → QResult → Bool) (sortable : Bool)
    (sets : List (List QResult)) (seen : List Nat) (off lim : PyInt)
    (sets3 : List (List QResult)) (seen3 : List Nat) (off3 lim3 : PyInt)
    (hz : pyIsZero lim = false)
    (hpull : mqPullC lt sortable sets seen off lim
      = (none, sets3, seen3, off3, lim3)) :
    mqDrain lt sortable sets seen off lim = [] := by
  rw [mqDrain_eq_of_not_zero lt sortable sets seen off lim hz, hpull]

theorem mqDrain_of_pullC_some (lt : QResult → QResult → Bool) (sortable : Bool)
    (sets : List (List QResult)) (seen : List Nat) (off lim : PyInt)
    (r : QResult) (sets2 : List (List QResult)) (seen2 : List Nat)
    (off2 lim2 : PyInt) (hz : pyIsZero lim = false)
    (hpull : mqPullC lt sortable sets seen off lim
      = (some r, sets2, seen2, off2, lim2)) :
    mqDrain lt sortable sets seen off lim
      = r :: mqDrain lt sortable sets2 seen2 off2 lim2 := by
  rw [mqDrain_eq_of_not_zero lt sortable sets seen off lim hz, hpull]

/-- The multi-query drain is the contiguous slice of the merged, deduplicated
stream: drop the offset, then take the limit. -/
theorem mqDrain_slice (lt : QResult → QResult → Bool) (sortable : Bool) :
    ∀ (sets : List (List QResult)) (seen : List Nat) (off lim : PyInt),
      (off = none ∨ ∃ o : Nat, off = some (o : Int)) →
      (lim = none ∨ ∃ l : Nat, lim = some (l : Int)) →
      mqDrain lt sortable sets seen off lim
        = limTake lim ((mqStream lt sortable sets seen).drop (offDrop off)) := by
  intro sets
  generalize hm : totalSize sets = n
  induction n using Nat.strong_induction_on generalizing sets with
  | _ n ih =>
      subst hm
      intro seen off lim hoff hlim
      by_cases hz : pyIsZero lim = true
      · obtain ⟨l, hl⟩ : ∃ l : Int, lim = some l := by
          cases lim with
          | none => simp [pyIsZero] at hz
          | some l => exact ⟨l, rfl⟩
        have hl0 : l = 0 := by
          rw [hl] at hz
          simpa [pyIsZero] using hz
        conv_lhs => rw [mqDrain]
        rw [if_pos hz]
        simp [hl, hl0, limTake]
      · have hz2 : pyIsZero lim = false := by simpa using hz
        rcases hstep : mqStep lt sortable sets with _ | ⟨r, sets2⟩
        · have hpull := mqPullC_of_step_none lt sortable sets seen off lim hstep
          have hpull0 := mqPullC_of_step_none lt sortable sets seen none none hstep
          have hs : mqStream lt sortable sets seen = [] := by
            unfold mqStream
            exact mqDrain_of_pullC_none lt sortable sets seen none none _ _ _ _
              rfl hpull0
          rw [mqDrain_of_pullC_none lt sortable sets seen off lim _ _ _ _
            hz2 hpull, hs]
          cases lim <;> simp [limTake]
        · have hsz := mqStep_size lt sortable sets r sets2 hstep
          by_cases hmem : r.hashKey ∈ seen
          · have hdup := mqPullC_of_dup lt sortable sets seen off lim r sets2
              hstep hmem
            have hdup0 := mqPullC_of_dup lt sortable sets seen none none r sets2
              hstep hmem
            have hd : mqDrain lt sortable sets seen off lim
                = mqDrain lt sortable sets2 seen off lim := by
              rcases hpull2 : mqPullC lt sortable sets2 seen off lim
                with ⟨ro, s3, sn3, o3, l3⟩
              cases ro with
              | none =>
                  rw [mqDrain_of_pullC_none lt sortable sets seen off lim _ _ _ _
                    hz2 (hdup.trans hpull2),
                    mqDrain_of_pullC_none lt sortable sets2 seen off lim _ _ _ _
                    hz2 hpull2]
              | some r2 =>
                  rw [mqDrain_of_pullC_some lt sortable sets seen off lim r2 _ _ _ _
                    hz2 (hdup.trans hpull2),
                    mqDrain_of_pullC_some lt sortable sets2 seen off lim r2 _ _ _ _
                    hz2 hpull2]
            have hs : mqStream lt sortable sets seen
                = mqStream lt sortable sets2 seen := by
              unfold mqStream
              rcases hpull2 : mqPullC lt sortable sets2 seen none none
                with ⟨ro, s3, sn3, o3, l3⟩
              cases ro with
              | none =>
                  rw [mqDrain_of_pullC_none lt sortable sets seen none none _ _ _ _
                    rfl (hdup0.trans hpull2),
                    mqDrain_of_pullC_none lt sortable sets2 seen none none _ _ _ _
                    rfl hpull2]
              | some r2 =>
                  rw [mqDrain_of_pullC_some lt sortable sets seen none none r2 _ _ _ _
                    rfl (hdup0.trans hpull2),
                    mqDrain_of_pullC_some lt sortable sets2 seen none none r2 _ _ _ _
                    rfl hpull2]
            rw [hd, hs]
            exact ih (totalSize sets2) hsz sets2 rfl seen off lim hoff hlim
          · have hstream : mqStream lt sortable sets seen
                = r :: mqStream lt sortable sets2 (r.hashKey :: seen) := by
              unfold mqStream
              exact mqDrain_of_pullC_some lt sortable sets seen none none r sets2
                _ _ _ rfl
                (mqPullC_of_nolimit lt sortable sets seen none none r sets2 hstep
                  hmem rfl rfl)
            by_cases hofft : pyTruthy off = true
            · obtain ⟨o, ho⟩ : ∃ o : Nat, off = some (o : Int) := by
                rcases hoff with h | ⟨o, ho⟩
                · rw [h] at hofft
                  simp [pyTruthy] at hofft
                · exact ⟨o, ho⟩
              have ho1 : 1 ≤ o := by
                rw [ho] at hofft
                simp [pyTruthy] at hofft
                omega
              have hdec : pyDec off = some ((o - 1 : Nat) : Int) := by
                rw [ho]
                simp [pyDec]
                omega
              have hpull := mqPullC_of_offset lt sortable sets seen off lim r sets2
                hstep hmem hofft
              have hd : mqDrain lt sortable sets seen off lim
                  = mqDrain lt sortable sets2 (r.hashKey :: seen) (pyDec off) lim := by
                rcases hpull2 : mqPullC lt sortable sets2 (r.hashKey :: seen)
                  (pyDec off) lim with ⟨ro, s3, sn3, o3, l3⟩
                cases ro with
                | none =>
                    rw [mqDrain_of_pullC_none lt sortable sets seen off lim _ _ _ _
                      hz2 (hpull.trans hpull2),
                      mqDrain_of_pullC_none lt sortable sets2 (r.hashKey :: seen)
                      (pyDec off) lim _ _ _ _ hz2 hpull2]
                | some r2 =>
                    rw [mqDrain_of_pullC_some lt sortable sets seen off lim r2 _ _ _ _
                      hz2 (hpull.trans hpull2),
                      mqDrain_of_pullC_some lt sortable sets2 (r.hashKey :: seen)
                      (pyDec off) lim r2 _ _ _ _ hz2 hpull2]
              rw [hd, ih (totalSize sets2) hsz sets2 rfl (r.hashKey :: seen)
                (pyDec off) lim (Or.inr ⟨o - 1, hdec⟩) hlim, hstream]
              have hdrop1 : offDrop (pyDec off) = o - 1 := by
                rw [hdec]
                simp [offDrop]
              have hdrop2 : offDrop off = (o - 1) + 1 := by
                rw [ho]
                simp [offDrop]
                omega
              rw [hdrop1, hdrop2, List.drop_succ_cons]
            · have hofff : pyTruthy off = false := by simpa using hofft
              have hod : offDrop off = 0 := by
                rcases hoff with h | ⟨o, ho⟩
                · rw [h]
                  rfl
                · rw [ho] at hofff ⊢
                  simp [pyTruthy] at hofff
                  simp [offDrop, hofff]
              by_cases hlimt : pyTruthy lim = true
              · obtain ⟨l, hl⟩ : ∃ l : Nat, lim = some (l : Int) := by
                  rcases hlim with h | hsome
                  · rw [h] at hlimt
                    simp [pyTruthy] at hlimt
                  · exact hsome
                have hl1 : 1 ≤ l := by
                  rw [hl] at hz2
                  simp [pyIsZero] at hz2
                  omega
                have hdec : pyDec lim = some ((l - 1 : Nat) : Int) := by
                  rw [hl]
                  simp [pyDec]
                  omega
                have hpull := mqPullC_of_limit lt sortable sets seen off lim r sets2
                  hstep hmem hofff hlimt
                rw [mqDrain_of_pullC_some lt sortable sets seen off lim r _ _ _ _
                  hz2 hpull,
                  ih (totalSize sets2) hsz sets2 rfl (r.hashKey :: seen) off
                  (pyDec lim) hoff (Or.inr ⟨l - 1, hdec⟩), hstream, hod,
                  List.drop_zero, hdec, hl]
                simp only [limTake, hod, List.drop_zero]
                have h1 : ((l : Int)).toNat = (l - 1) + 1 := by omega
                have h2 : (((l - 1 : Nat) : Int)).toNat = l - 1 := by omega
                rw [h1, h2, List.take_succ_cons]
              · have hlimf : pyTruthy lim = false := by simpa using hlimt
                have hnone : lim = none := by
                  rcases hlim with h | ⟨l, hl⟩
                  · exact h
                  · rw [hl] at hlimf hz2
                    simp [pyTruthy] at hlimf
                    rw [hlimf] at hz2
                    simp [pyIsZero] at hz2
                have hpull := mqPullC_of_nolimit lt sortable sets seen off lim r sets2
                  hstep hmem hofff hlimf
                rw [mqDrain_of_pullC_some lt sortable sets seen off lim r _ _ _ _
                  hz2 hpull,
                  ih (totalSize sets2) hsz sets2 rfl (r.hashKey :: seen) off lim
                  hoff hlim, hstream, hod, List.drop_zero, hnone]
                simp [limTake, hod]

theorem mqDrain_congr_pullC (lt : QResult → QResult → Bool) (sortable : Bool)
    (sets : List (List QResult)) (seen : List Nat)
    (sets' : List (List QResult)) (seen' : List Nat) (off lim : PyInt)
    (h : mqPullC lt sortable sets seen off lim
      = mqPullC lt sortable sets' seen' off lim) :
    mqDrain lt sortable sets seen off lim
      = mqDrain lt sortable sets' seen' off lim := by
  by_cases hz : pyIsZero lim = true
  · conv_lhs => rw [mqDrain]
    conv_rhs => rw [mqDrain]
    rw [if_pos hz, if_pos hz]
  · have hz2 : pyIsZero lim = false := by simpa using hz
    rcases hpull2 : mqPullC lt sortable sets' seen' off lim
      with ⟨ro, s3, sn3, o3, l3⟩
    cases ro with
    | none =>
        rw [mqDrain_of_pullC_none lt sortable sets seen off lim _ _ _ _ hz2
          (h.trans hpull2),
          mqDrain_of_pullC_none lt sortable sets' seen' off lim _ _ _ _ hz2 hpull2]
    | some r2 =>
        rw [mqDrain_of_pullC_some lt sortable sets seen off lim r2 _ _ _ _ hz2
          (h.trans hpull2),
          mqDrain_of_pullC_some lt sortable sets' seen' off lim r2 _ _ _ _ hz2
          hpull2]

theorem mqPullC_congr_filter (lt : QResult → QResult → Bool) (sortable : Bool)
    (sets sets' : List (List QResult)) (seen : List Nat) (off lim : PyInt)
    (hf : sets.filter (fun s => !s.isEmpty) = sets'.filter (fun s => !s.isEmpty)) :
    mqPullC lt sortable sets seen off lim
      = mqPullC lt sortable sets' seen off lim := by
  have hstepEq : mqStep lt sortable sets = mqStep lt sortable sets' := by
    unfold mqStep
    rw [hf]
  rw [mqPullC_eq, mqPullC_eq, hstepEq, hf]

/-- Every identity present in the sub-result-sets and not already seen occurs
exactly once in the merged, deduplicated stream; identities already seen never
occur. -/
theorem mqStream_countP (lt : QResult → QResult → Bool) (sortable : Bool) :
    ∀ (sets : List (List QResult)) (seen : List Nat) (k : Nat),
      (mqStream lt sortable sets seen).countP (fun x => x.hashKey == k)
        = if k ∉ seen ∧ k ∈ sets.flatten.map QResult.hashKey then 1 else 0 := by
  intro sets
  generalize hm : totalSize sets = n
  induction n using Nat.strong_induction_on generalizing sets with
  | _ n ih =>
      subst hm
      intro seen k
      rcases hstep : mqStep lt sortable sets with _ | ⟨r, sets2⟩
      · have hflat := mqStep_none_flatten lt sortable sets hstep
        have hs : mqStream lt sortable sets seen = [] := by
          unfold mqStream
          exact mqDrain_of_pullC_none lt sortable sets seen none none _ _ _ _
            rfl (mqPullC_of_step_none lt sortable sets seen none none hstep)
        rw [hs, hflat]
        simp
      · have hsz := mqStep_size lt sortable sets r sets2 hstep
        have hperm := (mqStep_perm lt sortable sets r sets2 hstep).map
          QResult.hashKey
        by_cases hmem : r.hashKey ∈ seen
        · have hs : mqStream lt sortable sets seen
              = mqStream lt sortable sets2 seen := by
            unfold mqStream
            exact mqDrain_congr_pullC lt sortable sets seen sets2 seen none none
              (mqPullC_of_dup lt sortable sets seen none none r sets2 hstep hmem)
          rw [hs, ih (totalSize sets2) hsz sets2 rfl seen k]
          have hiff : k ∈ sets.flatten.map QResult.hashKey
              ↔ k = r.hashKey ∨ k ∈ sets2.flatten.map QResult.hashKey := by
            rw [hperm.mem_iff]
            simp
          by_cases hks : k ∈ seen
          · rw [if_neg (fun hc => hc.1 hks), if_neg (fun hc => hc.1 hks)]
          · have hkr : k ≠ r.hashKey := fun hkr => hks (hkr ▸ hmem)
            have hiff2 : k ∈ sets2.flatten.map QResult.hashKey
                ↔ k ∈ sets.flatten.map QResult.hashKey := by
              rw [hiff]
              constructor
              · exact Or.inr
              · rintro (he | hm2)
                · exact absurd he hkr
                · exact hm2
            exact if_congr (and_congr Iff.rfl hiff2) rfl rfl
        · have hs : mqStream lt sortable sets seen
              = r :: mqStream lt sortable sets2 (r.hashKey :: seen) := by
            unfold mqStream
            exact mqDrain_of_pullC_some lt sortable sets seen none none r sets2
              _ _ _ rfl
              (mqPullC_of_nolimit lt sortable sets seen none none r sets2 hstep
                hmem rfl rfl)
          rw [hs, List.countP_cons,
            ih (totalSize sets2) hsz sets2 rfl (r.hashKey :: seen) k]
          have hiff : k ∈ sets.flatten.map QResult.hashKey
              ↔ k = r.hashKey ∨ k ∈ sets2.flatten.map QResult.hashKey := by
            rw [hperm.mem_iff]
            simp
          by_cases hkr : k = r.hashKey
          · subst hkr
            have h2 : ¬(r.hashKey ∉ r.hashKey :: seen
                ∧ r.hashKey ∈ sets2.flatten.map QResult.hashKey) := by
              simp
            have h3 : r.hashKey ∉ seen
                ∧ r.hashKey ∈ sets.flatten.map QResult.hashKey :=
              ⟨hmem, hiff.mpr (Or.inl rfl)⟩
            rw [if_neg h2, if_pos h3]
            simp
          · have hbeq : (r.hashKey == k) = false := by
              simp only [beq_eq_false_iff_ne]
              exact fun he => hkr he.symm
            have hiff2 : (k ∉ r.hashKey :: seen
                  ∧ k ∈ sets2.flatten.map QResult.hashKey)
                ↔ (k ∉ seen ∧ k ∈ sets.flatten.map QResult.hashKey) := by
              rw [hiff, List.mem_cons]
              constructor
              · rintro ⟨hn, hm2⟩
                exact ⟨fun hk => hn (Or.inr hk), Or.inr hm2⟩
              · rintro ⟨hn, hm2⟩
                rcases hm2 with he | hm2
                · exact absurd he hkr
                · refine ⟨fun hx => ?_, hm2⟩
                  rcases hx with he | hx
                  · exact hkr he
                  · exact hn hx
            rw [if_congr hiff2 rfl rfl, hbeq]
            simp

/-- `_MultiQueryIteratorImpl.has_next_async`: `True` if a result is buffered;
`False` when no sub-iterators remain; `False` immediately when the limit
counter is `0`; otherwise run the pull loop. -/
def mqHasNext (lt : QResult → QResult → Bool) (s : MQState) : Bool × MQState :=
  if s.nextResult.isSome then (true, s)
  else if s.resultSets.isEmpty then (false, s)
  else if pyIsZero s.limit then (false, s)
  else
    match mqPullC lt s.sortable s.resultSets s.seenKeys s.offset s.limit with
    | (none, sets, seen, off, lim) =>
        (false, ⟨sets, s.sortable, seen, none, off, lim⟩)
    | (some r, sets, seen, off, lim) =>
        (true, ⟨sets, s.sortable, seen, some r, off, lim⟩)

/-- `_MultiQueryIteratorImpl.next`: `StopIteration` becomes `none`, otherwise
the buffered result is returned and cleared (eliding of the extra sort-only
projections does not change the result's identity or payload here). -/
def mqNext (lt : QResult → QResult → Bool) (s : MQState) :
    Option (QResult × MQState) :=
  match mqHasNext lt s with
  | (false, _) => none
  | (true, s1) =>
      match s1.nextResult with
      | some r => some (r, { s1 with nextResult := none })
      | none => none

/-- Measure decreased by every successful `mqNext`. -/
def mqMeasure (s : MQState) : Nat :=
  2 * totalSize s.resultSets + (if s.nextResult.isSome then 1 else 0)

theorem mqNext_measure (lt : QResult → QResult → Bool) (s : MQState)
    (r : QResult) (s2 : MQState) (h : mqNext lt s = some (r, s2)) :
    mqMeasure s2 < mqMeasure s := by
  unfold mqNext at h
  split at h
  · exact absurd h (by simp)
  · rename_i pair s1 heq
    split at h
    · rename_i r0 hr0
      simp only [Option.some.injEq, Prod.mk.injEq] at h
      have hs2 : s2 = { s1 with nextResult := none } := h.2.symm
      unfold mqHasNext at heq
      split at heq
      · rename_i hbuf
        have hs1 : s1 = s := by simpa using heq.symm
        subst hs1
        rw [hs2]
        simp [mqMeasure, hbuf]
      · split at heq
        · exact absurd heq (by simp)
        · split at heq
          · exact absurd heq (by simp)
          · rename_i hbuf hsets hlim
            split at heq
            · exact absurd heq (by simp)
            · rename_i r1 sets1 seen1 off1 lim1 hpull
              have hs1 : s1 = ⟨sets1, s.sortable, seen1, some r1, off1, lim1⟩ := by
                simpa using heq.symm
              have hsz := mqPullC_size lt s.sortable s.resultSets s.seenKeys
                s.offset s.limit r1 sets1 seen1 off1 lim1 hpull
              rw [hs2, hs1]
              simp only [mqMeasure]
              simp
              omega
    · exact absurd h (by simp)

/-- Draining a multi-query iterator through `has_next`/`next`. -/
def mqDrainS (lt : QResult → QResult → Bool) (s : MQState) : List QResult :=
  match hn : mqNext lt s with
  | none => []
  | some (r, s2) => r :: mqDrainS lt s2
termination_by mqMeasure s
decreasing_by exact mqNext_measure lt s _ _ hn

/-- Draining through `has_next`/`next` from a buffer-free state computes
`mqDrain`. -/
theorem mqDrainS_eq_mqDrain (lt : QResult → QResult → Bool) (sortable : Bool) :
    ∀ (sets : List (List QResult)) (seen : List Nat) (off lim : PyInt),
      mqDrainS lt ⟨sets, sortable, seen, none, off, lim⟩
        = mqDrain lt sortable sets seen off lim := by
  intro sets
  generalize hm : totalSize sets = n
  induction n using Nat.strong_induction_on generalizing sets with
  | _ n ih =>
      subst hm
      intro seen off lim
      by_cases hsets : sets.isEmpty = true
      · have hnil : sets = [] := List.isEmpty_iff.mp hsets
        subst hnil
        have h1 : mqNext lt ⟨[], sortable, seen, none, off, lim⟩ = none := by
          unfold mqNext mqHasNext
          simp
        rw [mqDrainS]
        split
        · by_cases hz : pyIsZero lim = true
          · conv_rhs => rw [mqDrain]
            rw [if_pos hz]
          · have hz2 : pyIsZero lim = false := by simpa using hz
            have hstep : mqStep lt sortable [] = none := by
              unfold mqStep
              rfl
            rw [mqDrain_of_pullC_none lt sortable [] seen off lim _ _ _ _ hz2
              (mqPullC_of_step_none lt sortable [] seen off lim hstep)]
        · rename_i r s2 hn
          rw [h1] at hn
          exact absurd hn (by simp)
      · by_cases hz : pyIsZero lim = true
        · have h1 : mqNext lt ⟨sets, sortable, seen, none, off, lim⟩ = none := by
            unfold mqNext mqHasNext
            simp [hsets, hz]
          rw [mqDrainS]
          split
          · conv_rhs => rw [mqDrain]
            rw [if_pos hz]
          · rename_i r s2 hn
            rw [h1] at hn
            exact absurd hn (by simp)
        · have hz2 : pyIsZero lim = false := by simpa using hz
          rcases hpull : mqPullC lt sortable sets seen off lim
            with ⟨ro, sets2, seen2, off2, lim2⟩
          cases ro with
          | none =>
              have h1 : mqNext lt ⟨sets, sortable, seen, none, off, lim⟩ = none := by
                unfold mqNext mqHasNext
                simp [hsets, hz, hpull]
              rw [mqDrainS]
              split
              · rw [mqDrain_of_pullC_none lt sortable sets seen off lim _ _ _ _
                  hz2 hpull]
              · rename_i r s2 hn
                rw [h1] at hn
                exact absurd hn (by simp)
          | some r =>
              have h1 : mqNext lt ⟨sets, sortable, seen, none, off, lim⟩
                  = some (r, ⟨sets2, sortable, seen2, none, off2, lim2⟩) := by
                unfold mqNext mqHasNext
                simp [hsets, hz, hpull]
              have hsz := mqPullC_size lt sortable sets seen off lim r sets2
                seen2 off2 lim2 hpull
              rw [mqDrainS]
              split
              · rename_i hn
                rw [h1] at hn
                exact absurd hn (by simp)
              · rename_i r2 s2 hn
                rw [h1] at hn
                simp only [Option.some.injEq, Prod.mk.injEq] at hn
                rw [mqDrain_of_pullC_some lt sortable sets seen off lim r _ _ _ _
                  hz2 hpull, hn.1, ← hn.2]
                exact congrArg (fun x => _ :: x)
                  (ih (totalSize sets2) hsz sets2 rfl seen2 off2 lim2)

/-! ## Claim theorems for the post-filter and multi-query iterators -/

/-- C1: a post-filter or multi-query iterator constructed with offset `o` and
limit `l` drains, via `has_next`/`next`, to exactly the contiguous slice
`[o, o+l)` of the underlying post-filtered (resp. post-merge, deduplicated)
stream, hence `min l (N - o)` results over a stream of length `N` (which is
`max(0, min(l, N-o))` in integer terms). -/
theorem postfilter_multiquery_offset_limit_conservation
    (p : Entity → Bool) (lt : QResult → QResult → Bool) (q : QuerySpec)
    (stream : List QResult) (sets : List (List QResult)) (o l : Nat)
    (hoff : q.offset = some (o : Int)) (hlim : q.limit = some (l : Int)) :
    pfDrainS p (pfInit q stream)
        = ((stream.filter (fun r => p r.entity)).drop o).take l
      ∧ (pfDrainS p (pfInit q stream)).length
          = min l ((stream.filter (fun r => p r.entity)).length - o)
      ∧ mqDrainS lt (mqInit q sets)
          = ((mqStream lt (pyListTruthy q.orderByNames) sets []).drop o).take l
      ∧ (mqDrainS lt (mqInit q sets)).length
          = min l ((mqStream lt (pyListTruthy q.orderByNames) sets []).length - o) := by
  have hpf : pfDrainS p (pfInit q stream)
      = ((stream.filter (fun r => p r.entity)).drop o).take l := by
    unfold pfInit
    rw [pfDrainS_eq_pfDrain, pfDrain_slice p stream q.offset q.limit
      (Or.inr ⟨o, hoff⟩) (Or.inr ⟨l, hlim⟩), hoff, hlim]
    simp [offDrop, limTake]
  have hmq : mqDrainS lt (mqInit q sets)
      = ((mqStream lt (pyListTruthy q.orderByNames) sets []).drop o).take l := by
    unfold mqInit
    rw [mqDrainS_eq_mqDrain, mqDrain_slice lt (pyListTruthy q.orderByNames) sets
      [] q.offset q.limit (Or.inr ⟨o, hoff⟩) (Or.inr ⟨l, hlim⟩), hoff, hlim]
    simp [offDrop, limTake]
  refine ⟨hpf, ?_, hmq, ?_⟩
  · rw [hpf, List.length_take, List.length_drop]
  · rw [hmq, List.length_take, List.length_drop]

/-- C10: an iterator built from a query with `limit == 0` answers `False`
immediately, leaving its state — in particular the underlying stream and the
sub-iterators — untouched; a `None` limit instead means unlimited: the drain
is the whole filtered (resp. merged) stream past the offset. -/
theorem limit_zero_immediately_exhausted (p : Entity → Bool)
    (lt : QResult → QResult → Bool) (q : QuerySpec) (stream : List QResult)
    (sets : List (List QResult)) (h0 : q.limit = some 0) :
    pfHasNext p (pfInit q stream) = (false, pfInit q stream)
      ∧ mqHasNext lt (mqInit q sets) = (false, mqInit q sets)
      ∧ (∀ (q2 : QuerySpec) (o : Nat), q2.limit = none →
          q2.offset = some (o : Int) →
          pfDrainS p (pfInit q2 stream)
              = (stream.filter (fun r => p r.entity)).drop o
            ∧ mqDrainS lt (mqInit q2 sets)
                = (mqStream lt (pyListTruthy q2.orderByNames) sets []).drop o) := by
  refine ⟨?_, ?_, ?_⟩
  · unfold pfHasNext pfInit
    simp [h0, pyIsZero]
  · unfold mqHasNext mqInit
    by_cases hsets : sets.isEmpty = true <;> simp [h0, pyIsZero, hsets]
  · intro q2 o hnone ho
    constructor
    · unfold pfInit
      rw [pfDrainS_eq_pfDrain, pfDrain_slice p stream q2.offset q2.limit
        (Or.inr ⟨o, ho⟩) (Or.inl hnone), ho, hnone]
      simp [offDrop, limTake]
    · unfold mqInit
      rw [mqDrainS_eq_mqDrain, mqDrain_slice lt (pyListTruthy q2.orderByNames)
        sets [] q2.offset q2.limit (Or.inr ⟨o, ho⟩) (Or.inl hnone), ho, hnone]
      simp [offDrop, limTake]

/-- C2: an identity appearing in the result sets of two (or more) disjuncts
occurs exactly once in the merged, deduplicated stream; and a selected result
whose identity was already seen is discarded with the pull retried, leaving
the private offset and limit counters untouched (stated for the unordered
merge, where the head of the first surviving sub-iterator is selected). -/
theorem multiquery_dedup_exactly_once (lt : QResult → QResult → Bool)
    (sortable : Bool) (sets : List (List QResult)) (k : Nat) (i j : Nat)
    (hij : i ≠ j) (hi : k ∈ ((sets.getD i []).map QResult.hashKey))
    (hj : k ∈ ((sets.getD j []).map QResult.hashKey)) :
    (mqStream lt sortable sets []).countP (fun x => x.hashKey == k) = 1
      ∧ (∀ (r : QResult) (s0 : List QResult) (rest : List (List QResult))
          (seen : List Nat) (off lim : PyInt), r.hashKey ∈ seen →
          mqDrain lt false ((r :: s0) :: rest) seen off lim
            = mqDrain lt false (s0 :: rest) seen off lim) := by
  constructor
  · have hk : k ∈ sets.flatten.map QResult.hashKey := by
      rw [List.mem_map] at hi ⊢
      obtain ⟨r, hr, hrk⟩ := hi
      by_cases hilen : i < sets.length
      · refine ⟨r, ?_, hrk⟩
        rw [List.mem_flatten]
        refine ⟨sets.getD i [], ?_, hr⟩
        rw [List.getD_eq_getElem _ _ hilen]
        exact List.getElem_mem hilen
      · rw [List.getD_eq_default _ _ (by omega)] at hr
        exact absurd hr (by simp)
    rw [mqStream_countP lt sortable sets [] k, if_pos ⟨List.not_mem_nil k, hk⟩]
  · intro r s0 rest seen off lim hmem
    have hf1 : ((r :: s0) :: rest).filter (fun s => !s.isEmpty)
        = (r :: s0) :: rest.filter (fun s => !s.isEmpty) :=
      List.filter_cons_of_pos (by simp)
    have hstep : mqStep lt false ((r :: s0) :: rest)
        = some (r, s0 :: rest.filter (fun s => !s.isEmpty)) := by
      rw [mqStep_of_filter_cons_unsorted lt ((r :: s0) :: rest) (r :: s0)
        (rest.filter (fun s => !s.isEmpty)) hf1]
      simp
    have hdup := mqPullC_of_dup lt false ((r :: s0) :: rest) seen off lim r
      (s0 :: rest.filter (fun s => !s.isEmpty)) hstep hmem
    have hcongr := mqPullC_congr_filter lt false
      (s0 :: rest.filter (fun s => !s.isEmpty)) (s0 :: rest) seen off lim
      (by
        have hidem : (rest.filter (fun s => !s.isEmpty)).filter
            (fun s => !s.isEmpty) = rest.filter (fun s => !s.isEmpty) :=
          List.filter_eq_self.mpr (fun a ha => (List.mem_filter.mp ha).2)
        by_cases hs0 : s0.isEmpty = true
        · rw [List.filter_cons_of_neg (by simp [hs0]),
            List.filter_cons_of_neg (by simp [hs0]), hidem]
        · rw [List.filter_cons_of_pos (by simp [hs0]),
            List.filter_cons_of_pos (by simp [hs0]), hidem])
    exact mqDrain_congr_pullC lt false ((r :: s0) :: rest) seen (s0 :: rest)
      seen off lim (hdup.trans hcongr)

/-! ## Concrete witnesses for the iterator claims -/

/-- Example comparator (irrelevant for unordered merges). -/
def ltC1 : QResult → QResult → Bool := fun _ _ => false

/-- Example post-filter predicate: keep entities with nonzero payload. -/
def pC1 : Entity → Bool := fun e => e.data != 0

def r0C1 : QResult := ⟨.full, ⟨1, 0⟩, [1]⟩

def rAC1 : QResult := ⟨.full, ⟨2, 5⟩, [2]⟩

def rBC1 : QResult := ⟨.full, ⟨3, 6⟩, [3]⟩

def rCC1 : QResult := ⟨.full, ⟨4, 7⟩, [4]⟩

def rDC1 : QResult := ⟨.full, ⟨5, 8⟩, [5]⟩

def streamC1 : List QResult := [r0C1, rAC1, rBC1, rCC1, rDC1]

def mAC1 : QResult := ⟨.full, ⟨10, 1⟩, [6]⟩

def mBC1 : QResult := ⟨.full, ⟨20, 2⟩, [7]⟩

def mCC1 : QResult := ⟨.full, ⟨30, 3⟩, [8]⟩

def setsC1 : List (List QResult) := [[mAC1, mBC1], [mCC1]]

def qC1 : QuerySpec := ⟨none, none, none, some 2, some 1, none⟩

theorem postfilter_multiquery_offset_limit_conservation_witness :
    pfDrainS pC1 (pfInit qC1 streamC1) = [rBC1, rCC1]
      ∧ mqDrainS ltC1 (mqInit qC1 setsC1) = [mBC1, mCC1] := by
  have h := postfilter_multiquery_offset_limit_conservation pC1 ltC1 qC1
    streamC1 setsC1 1 2 (by decide) (by decide)
  have s1 : mqStream ltC1 false setsC1 []
      = mAC1 :: mqDrain ltC1 false [[mBC1], [mCC1]] [10] none none := by
    unfold mqStream
    exact mqDrain_of_pullC_some ltC1 false setsC1 [] none none mAC1
      [[mBC1], [mCC1]] [10] none none (by decide)
      (mqPullC_of_nolimit ltC1 false setsC1 [] none none mAC1
        [[mBC1], [mCC1]] (by decide) (by decide) (by decide) (by decide))
  have s2 : mqDrain ltC1 false [[mBC1], [mCC1]] [10] none none
      = mBC1 :: mqDrain ltC1 false [[], [mCC1]] [20, 10] none none :=
    mqDrain_of_pullC_some ltC1 false [[mBC1], [mCC1]] [10] none none mBC1
      [[], [mCC1]] [20, 10] none none (by decide)
      (mqPullC_of_nolimit ltC1 false [[mBC1], [mCC1]] [10] none none mBC1
        [[], [mCC1]] (by decide) (by decide) (by decide) (by decide))
  have s3 : mqDrain ltC1 false [[], [mCC1]] [20, 10] none none
      = mCC1 :: mqDrain ltC1 false [[]] [30, 20, 10] none none :=
    mqDrain_of_pullC_some ltC1 false [[], [mCC1]] [20, 10] none none mCC1
      [[]] [30, 20, 10] none none (by decide)
      (mqPullC_of_nolimit ltC1 false [[], [mCC1]] [20, 10] none none mCC1
        [[]] (by decide) (by decide) (by decide) (by decide))
  have s4 : mqDrain ltC1 false [[]] [30, 20, 10] none none = [] :=
    mqDrain_of_pullC_none ltC1 false [[]] [30, 20, 10] none none
      [] [30, 20, 10] none none (by decide)
      (mqPullC_of_step_none ltC1 false [[]] [30, 20, 10] none none (by decide))
  refine ⟨h.1.trans (by decide), h.2.2.1.trans ?_⟩
  show ((mqStream ltC1 false setsC1 []).drop 1).take 2 = [mBC1, mCC1]
  rw [s1, s2, s3, s4]
  decide

def ltC2 : QResult → QResult → Bool := fun _ _ => false

/-- Two disjuncts producing the same identity (key 7) with different
payload snapshots. -/
def dup1C2 : QResult := ⟨.full, ⟨7, 1⟩, [1]⟩

def dup2C2 : QResult := ⟨.full, ⟨7, 2⟩, [2]⟩

def extraC2 : QResult := ⟨.full, ⟨8, 3⟩, [3]⟩

def setsC2 : List (List QResult) := [[dup1C2], [dup2C2]]

theorem multiquery_dedup_exactly_once_witness :
    (mqStream ltC2 false setsC2 []).countP (fun x => x.hashKey == 7) = 1
      ∧ mqDrain ltC2 false [[dup2C2], [extraC2]] [7] (some 1) (some 2)
          = mqDrain ltC2 false [[], [extraC2]] [7] (some 1) (some 2) := by
  have h := multiquery_dedup_exactly_once ltC2 false setsC2 7 0 1
    (by decide) (by decide) (by decide)
  exact ⟨h.1, h.2 dup2C2 [] [[extraC2]] [7] (some 1) (some 2) (by decide)⟩

def ltC10 : QResult → QResult → Bool := fun _ _ => false

def pC10 : Entity → Bool := fun _ => true

def uAC10 : QResult := ⟨.full, ⟨41, 1⟩, [1]⟩

def uBC10 : QResult := ⟨.full, ⟨42, 2⟩, [2]⟩

def uCC10 : QResult := ⟨.full, ⟨43, 3⟩, [3]⟩

def streamC10 : List QResult := [uAC10, uBC10, uCC10]

def setsC10 : List (List QResult) := [[uAC10], [uBC10]]

/-- A query with `limit == 0`. -/
def qZeroC10 : QuerySpec := ⟨none, none, none, some 0, none, none⟩

/-- A query with no limit and offset 1. -/
def qUnlimC10 : QuerySpec := ⟨none, none, none, none, some 1, none⟩

theorem limit_zero_immediately_exhausted_witness :
    pfHasNext pC10 (pfInit qZeroC10 streamC10)
        = (false, pfInit qZeroC10 streamC10)
      ∧ mqHasNext ltC10 (mqInit qZeroC10 setsC10)
          = (false, mqInit qZeroC10 setsC10)
      ∧ pfDrainS pC10 (pfInit qUnlimC10 streamC10) = [uBC10, uCC10] := by
  have h := limit_zero_immediately_exhausted pC10 ltC10 qZeroC10 streamC10
    setsC10 (by decide)
  exact ⟨h.1, h.2.1,
    ((h.2.2 qUnlimC10 1 (by decide) (by decide)).1).trans (by decide)⟩

/-! ## `count` and its two strategies (`_datastore_query.count`,
`_count_brute_force`, `_count_by_skipping`) -/

/-- The two counting strategies `count` dispatches to. -/
inductive CountStrategy where
  | bruteForce
  | skipBased
deriving DecidableEq, Repr

/-- `_datastore_query.count`: brute force whenever the filter tree is a
multiquery or has post-filters, and also — regardless of the query — whenever
the `GCD_HOST` environment variable signals the Datastore emulator; otherwise
skip-based. -/
def countRoute (emulatorHost : Bool) (q : QuerySpec) : CountStrategy :=
  match q.filters with
  | some f =>
      if f.multiquery || f.postFiltersPresent then .bruteForce
      else if emulatorHost then .bruteForce else .skipBased
  | none => if emulatorHost then .bruteForce else .skipBased

/-- Cursor bytes of the canonical backend decode to a stream position: a
cursor is the one-byte position `[p]`; an absent cursor starts at 0. -/
def decodeCursor : Option Bytes → Nat
  | none => 0
  | some c => c.headD 0

/-- The canonical backend's key-only result at stream position `i`. -/
def serverResult (i : Nat) : QResult := ⟨.keyOnly, ⟨i, 0⟩, [i + 1]⟩

/-- A canonical well-behaved Datastore backend over a fixed underlying stream
of `n` results: one `run_query` response per request, honoring `start_cursor`,
`offset` (reported back in `skipped_results`) and `limit`, answering
`MORE_RESULTS_AFTER_LIMIT` while results remain and `NO_MORE_RESULTS`
otherwise (never `NOT_FINISHED`, and with a usable `end_cursor` — the two
emulator deviations the routing comment in `count` works around). -/
def serverRun (n : Nat) (q : QuerySpec) : WireBatch :=
  let p0 := min (decodeCursor q.startCursor) n
  let skipped := min (q.offset.getD 0).toNat (n - p0)
  let pos1 := p0 + skipped
  let returned := match q.limit with
    | none => n - pos1
    | some l => min l.toNat (n - pos1)
  ⟨(((List.range n).map serverResult).drop pos1).take returned, .keyOnly,
   if pos1 + returned < n then .moreResultsAfterLimit else .noMoreResults,
   [pos1 + returned], (skipped : Int)⟩

/-- `_count_brute_force`'s counting loop, `while (yield has_next_async()):
count += 1; if limit and count == limit: break; results.next()`, over the
single-query iterator (a successful `has_next` followed by `next` is exactly
`sqNext`). -/
def bruteLoop (lim : PyInt) (count : Nat) (s : SQState) : Nat :=
  match hn : sqNext s with
  | none => count
  | some (_, s2) =>
      if pyTruthy lim ∧ ((count : Int) + 1 = lim.getD 0) then count + 1
      else bruteLoop lim (count + 1) s2
termination_by sqMeasure s
decreasing_by exact sqNext_measure s _ _ hn

/-- `_count_brute_force`: copy the query to a key-only, unordered projection,
iterate it against the backend, and count (the original limit, offset and
start cursor survive the copy). -/
def countBruteForce (n : Nat) (q : QuerySpec) : Nat :=
  bruteLoop q.limit 0
    (sqInit { q with projection := some ["__key__"], orderByNames := none }
      ⟨[], fun _ => false⟩
      [serverRun n { q with projection := some ["__key__"],
                            orderByNames := none }])

/-- Unless the canonical backend answers `NO_MORE_RESULTS`, its end cursor
strictly advances past the request's start cursor (and stays within the
stream). -/
theorem serverRun_progress (n : Nat) (off : Int) (cursor : Option Bytes)
    (h : (serverRun n ⟨none, some ["__key__"], none, some 1, some off,
      cursor⟩).moreResults ≠ .noMoreResults) :
    decodeCursor cursor
        < decodeCursor (some ((serverRun n ⟨none, some ["__key__"], none,
            some 1, some off, cursor⟩).endCursor))
      ∧ decodeCursor (some ((serverRun n ⟨none, some ["__key__"], none,
          some 1, some off, cursor⟩).endCursor)) ≤ n := by
  simp only [serverRun, Option.getD_some, List.headD_cons, decodeCursor] at h ⊢
  split at h
  · rename_i hlt
    omega
  · exact absurd rfl h

/-- `_count_by_skipping`'s loop: request key-only batches with `limit=1` and
`offset` equal to the remaining budget toward the requested count (10000 when
uncapped), accumulating `skipped_results` plus returned results, restarting
from each batch's end cursor, until `NO_MORE_RESULTS` or the requested count
is reached.  The copies overwrite the original query's offset and start
cursor. -/
def skipLoop (n : Nat) (lim : PyInt) (count : Nat) (cursor : Option Bytes) :
    Nat :=
  let off : Int := if pyTruthy lim then lim.getD 0 - count - 1 else 10000
  let batch := serverRun n ⟨none, some ["__key__"], none, some 1, some off,
    cursor⟩
  let count2 := count + batch.skippedResults.toNat + batch.results.length
  if pyTruthy lim ∧ lim.getD 0 ≤ (count2 : Int) then count2
  else if batch.moreResults = .noMoreResults then count2
  else skipLoop n lim count2 (some batch.endCursor)
termination_by n + 1 - decodeCursor cursor
decreasing_by
  rename_i h1 h2
  have h3 := serverRun_progress n off cursor h2
  show n + 1 - decodeCursor (some ((serverRun n ⟨none, some ["__key__"], none,
    some 1, some off, cursor⟩).endCursor)) < n + 1 - decodeCursor cursor
  omega

/-- `_count_by_skipping`: the loop starts with count 0, no cursor, and the
original query's limit as the budget. -/
def countBySkipping (n : Nat) (q : QuerySpec) : Nat := skipLoop n q.limit 0 none

theorem joinPending_single (b : WireBatch) : joinPending [b] = b.results := by
  simp [joinPending]

/-- Draining the iterator over a single canonical-backend batch yields exactly
that batch's results (key-only results are never tombstone-filtered, and an
empty cache filters nothing anyway). -/
theorem sqDrain_single_server (n : Nat) (q : QuerySpec) :
    sqDrain (sqInit q ⟨[], fun _ => false⟩ [serverRun n q])
      = (serverRun n q).results := by
  rw [sqDrain_abs _ rfl]
  simp [sqAbs, sqInit, joinPending_single]

theorem sqDrain_match_eq (s : SQState) :
    sqDrain s = match sqNext s with
      | none => []
      | some (r, s2) => r :: sqDrain s2 := by
  conv_lhs => rw [sqDrain]
  split <;> rename_i hn <;> rw [hn]

theorem bruteLoop_eq (lim : PyInt) (count : Nat) (s : SQState) :
    bruteLoop lim count s = match sqNext s with
      | none => count
      | some (_, s2) =>
          if pyTruthy lim ∧ ((count : Int) + 1 = lim.getD 0) then count + 1
          else bruteLoop lim (count + 1) s2 := by
  conv_lhs => rw [bruteLoop]
  split <;> rename_i hn <;> rw [hn]

theorem sqDrain_of_next_none (s : SQState) (hn : sqNext s = none) :
    sqDrain s = [] := by
  rw [sqDrain_match_eq, hn]

theorem sqDrain_of_next_some (s : SQState) (r : QResult) (s2 : SQState)
    (hn : sqNext s = some (r, s2)) : sqDrain s = r :: sqDrain s2 := by
  rw [sqDrain_match_eq, hn]

theorem bruteLoop_of_next_none (lim : PyInt) (count : Nat) (s : SQState)
    (hn : sqNext s = none) : bruteLoop lim count s = count := by
  rw [bruteLoop_eq, hn]

theorem bruteLoop_of_next_some (lim : PyInt) (count : Nat) (s : SQState)
    (r : QResult) (s2 : SQState) (hn : sqNext s = some (r, s2)) :
    bruteLoop lim count s
      = if pyTruthy lim ∧ ((count : Int) + 1 = lim.getD 0) then count + 1
        else bruteLoop lim (count + 1) s2 := by
  rw [bruteLoop_eq, hn]

/-- With a falsy limit (`None` or 0) the brute-force loop just counts the
whole drain. -/
theorem bruteLoop_not_truthy (lim : PyInt) (hl : pyTruthy lim = false)
    (count : Nat) (s : SQState) :
    bruteLoop lim count s = count + (sqDrain s).length := by
  generalize hm : sqMeasure s = m
  induction m using Nat.strong_induction_on generalizing count s with
  | _ m ih =>
      subst hm
      cases hn : sqNext s with
      | none =>
          rw [bruteLoop_of_next_none _ _ _ hn, sqDrain_of_next_none _ hn]
          simp
      | some p =>
          obtain ⟨r, s2⟩ := p
          rw [bruteLoop_of_next_some _ _ _ _ _ hn, sqDrain_of_next_some _ _ _ hn,
            if_neg (by simp [hl]),
            ih (sqMeasure s2) (sqNext_measure s r s2 hn) (count + 1) s2 rfl]
          simp [List.length_cons]
          omega

/-- With a positive limit `l` and a running count below `l`, the brute-force
loop counts the drain but stops at `l`. -/
theorem bruteLoop_truthy (l : Nat) (count : Nat) (hc : count < l)
    (s : SQState) :
    bruteLoop (some (l : Int)) count s
      = min (count + (sqDrain s).length) l := by
  generalize hm : sqMeasure s = m
  induction m using Nat.strong_induction_on generalizing count s with
  | _ m ih =>
      subst hm
      cases hn : sqNext s with
      | none =>
          rw [bruteLoop_of_next_none _ _ _ hn, sqDrain_of_next_none _ hn]
          simp
          omega
      | some p =>
          obtain ⟨r, s2⟩ := p
          have hpt : pyTruthy (some (l : Int)) = true := by
            simp [pyTruthy]
            omega
          rw [bruteLoop_of_next_some _ _ _ _ _ hn, sqDrain_of_next_some _ _ _ hn]
          by_cases hb : count + 1 = l
          · rw [if_pos ⟨hpt, by rw [Option.getD_some]; omega⟩]
            simp [List.length_cons]
            omega
          · rw [if_neg (by
              rintro ⟨-, habs⟩
              rw [Option.getD_some] at habs
              omega)]
            rw [ih (sqMeasure s2) (sqNext_measure s r s2 hn) (count + 1)
              (by omega) s2 rfl]
            simp [List.length_cons]
            omega

/-- With a falsy limit (`None` or 0) the skip-based loop accumulates the whole
remainder of the stream past the cursor. -/
theorem skipLoop_not_truthy (n : Nat) (lim : PyInt) (hl : pyTruthy lim = false)
    (count : Nat) (cursor : Option Bytes) :
    skipLoop n lim count cursor = count + (n - min (decodeCursor cursor) n) := by
  generalize hm : n - min (decodeCursor cursor) n = m
  induction m using Nat.strong_induction_on generalizing count cursor with
  | _ m ih =>
      subst hm
      rw [skipLoop]
      simp only [hl, serverRun, Option.getD_some, List.length_take,
        List.length_drop, List.length_map, List.length_range,
        Int.toNat_natCast, Bool.false_eq_true, if_false, false_and, ite_false]
      simp only [Int.toNat_one]
      have h10 : (10000 : Int).toNat = 10000 := rfl
      simp only [h10]
      generalize hp : decodeCursor cursor ⊓ n = p at ih ⊢
      generalize ha : (10000 : Nat) ⊓ (n - p) = a
      generalize hb : (1 : Nat) ⊓ (n - (p + a)) = b
      split
      · rename_i hlt
        rw [if_neg (by simp)]
        have hdc : decodeCursor (some [p + a + b]) = p + a + b := rfl
        have happ := ih (n - (p + a + b) ⊓ n) (by omega)
          (count + a + b ⊓ (n - (p + a))) (some [p + a + b]) (by rw [hdc])
        rw [happ]
        omega
      · rename_i hge
        rw [if_pos rfl]
        omega

/-- With a positive limit `l` the skip-based count finishes in one round:
offset `l - 1`, one returned result if the stream reaches that far, total
`min l n`. -/
theorem skipLoop_truthy_start (n : Nat) (l : Nat) (hl : 1 ≤ l) :
    skipLoop n (some (l : Int)) 0 none = min l n := by
  have hpt : pyTruthy (some (l : Int)) = true := by
    simp [pyTruthy]
    omega
  rw [skipLoop]
  simp only [hpt, if_true, serverRun, decodeCursor, Option.getD_some,
    List.length_take, List.length_drop, List.length_map, List.length_range,
    Int.toNat_one, true_and, Nat.cast_zero, sub_zero, Nat.zero_min,
    Nat.sub_zero, zero_add]
  split
  · rename_i hbreak
    omega
  · rename_i hbreak
    split
    · rename_i hlt
      exfalso
      omega
    · rename_i hge
      rw [if_pos rfl]
      omega

/-- C4 (amended): without the emulator environment variable, a query whose
filter tree is a multiquery or has post-filters routes to brute force and any
other query routes to skip-based counting (with the emulator variable set,
everything routes to brute force); and on the canonical backend the two
strategies agree for AND-only queries with no offset, no start cursor, and a
positive or absent limit. -/
theorem count_strategy_routing_and_equivalence (n : Nat) (q : QuerySpec)
    (hplain : q.filters = none ∨ q.filters = some ⟨false, false⟩)
    (hoff : q.offset = none) (hcur : q.startCursor = none)
    (hlim : q.limit = none ∨ ∃ l : Nat, 1 ≤ l ∧ q.limit = some (l : Int)) :
    countRoute false q = CountStrategy.skipBased
      ∧ (∀ (q2 : QuerySpec) (f : QFilters) (e : Bool), q2.filters = some f →
          (f.multiquery || f.postFiltersPresent) = true →
          countRoute e q2 = CountStrategy.bruteForce)
      ∧ countBruteForce n q = countBySkipping n q := by
  refine ⟨?_, ?_, ?_⟩
  · rcases hplain with hp | hp <;> simp [countRoute, hp]
  · intro q2 f e hf hmqpf
    simp [countRoute, hf, hmqpf]
  · unfold countBruteForce countBySkipping
    rcases hlim with hnone | ⟨l, hl1, hsome⟩
    · rw [hnone, bruteLoop_not_truthy none rfl 0 _, sqDrain_single_server,
        skipLoop_not_truthy n none rfl 0 none]
      simp [serverRun, hoff, hcur, hnone, decodeCursor]
    · rw [hsome, bruteLoop_truthy l 0 (by omega) _, sqDrain_single_server,
        skipLoop_truthy_start n l hl1]
      simp [serverRun, hoff, hcur, hsome, decodeCursor, Int.toNat_natCast]

/-- A plain AND-only query: no filters, no limit, no offset, no cursor. -/
def qPlainC4 : QuerySpec := ⟨none, none, none, none, none, none⟩

/-- A plain AND-only query with offset 1 and no limit. -/
def qOffC4 : QuerySpec := ⟨none, none, none, none, some 1, none⟩

/-- C4 counterexample: with the emulator environment variable set, a plain
AND-only query routes to brute force, not skip-based; and on a one-result
stream the two strategies disagree for an AND-only query with offset 1 —
brute force honors the offset (count 0) while skip-based overwrites it with
its own skipping offsets (count 1). -/
theorem count_emulator_and_offset_divergence :
    countRoute true qPlainC4 = CountStrategy.bruteForce
      ∧ countBruteForce 1 qOffC4 = 0
      ∧ countBySkipping 1 qOffC4 = 1 := by
  refine ⟨rfl, ?_, ?_⟩
  · unfold countBruteForce
    rw [bruteLoop_not_truthy qOffC4.limit rfl 0 _, sqDrain_single_server]
    decide
  · unfold countBySkipping
    rw [skipLoop_not_truthy 1 qOffC4.limit rfl 0 none]
    decide

/-- A plain AND-only query with limit 2 and neither offset nor cursor. -/
def qEquivC4 : QuerySpec := ⟨none, none, none, some 2, none, none⟩

/-- A query whose filter tree requires multiquery decomposition. -/
def qMultiC4 : QuerySpec := ⟨some ⟨true, false⟩, none, none, none, none, none⟩

theorem count_strategy_routing_and_equivalence_witness :
    countRoute false qEquivC4 = CountStrategy.skipBased
      ∧ countRoute true qMultiC4 = CountStrategy.bruteForce
      ∧ countBruteForce 3 qEquivC4 = countBySkipping 3 qEquivC4 := by
  have h := count_strategy_routing_and_equivalence 3 qEquivC4 (Or.inl rfl) rfl
    rfl (Or.inr ⟨2, by decide, rfl⟩)
  exact ⟨h.1, h.2.1 qMultiC4 ⟨true, false⟩ true rfl rfl, h.2.2⟩
